import Mathlib

/-!
Verification of the wallet core (account sync and transfer engine) against its
natural-language specification.

The Rust sources are shallowly embedded as pure Lean functions:

* node and signer interactions are passed in as explicit oracle arguments
  (a query function, or the precomputed response), so that each code path is a
  total function of its inputs;
* machine integers (`u64`, `i64`) are modelled as `Nat`/`Int`, with the one
  overflowing cast in the source (`as u64` on a possibly negative `i64`)
  modelled explicitly by reduction modulo `2 ^ 64`;
* bech32 address strings, output ids and message ids are modelled as `Nat`
  identities (only equality on them is ever used by the embedded code);
* fallible code returns `Except WalletError`.

Each embedded function keeps the name of the Rust function it is translated
from (`is_dust_allowed`, `get_address_outputs`, `select_inputs`, ...).
-/

namespace WalletSpec

/-- Output kind, from `address.rs` (`OutputKind`), as used by `sync/mod.rs`. -/
inductive OutputKind where
  | signatureLockedSingle
  | signatureLockedDustAllowance
  | treasury
deriving DecidableEq, Repr

/-- A UTXO as stored on an address (`AddressOutput`): identification is
reduced to a single `Nat` output id; the owning address is a `Nat` bech32
identity. -/
structure AddressOutput where
  outputId : Nat
  amount : Nat
  isSpent : Bool
  address : Nat
  kind : OutputKind
  messageId : Nat
deriving DecidableEq, Repr

/-- An account address (`Address`): bech32 identity, change flag, key index,
balance, and the `OutputId -> AddressOutput` map modelled as an association
list. -/
structure Address where
  address : Nat
  internal : Bool
  keyIndex : Nat
  balance : Nat
  outputs : List (Nat × AddressOutput)
deriving DecidableEq, Repr

/-- The error kinds of `error.rs` that the embedded code paths can produce. -/
inductive WalletError where
  | insufficientFunds
  | invalidRemainderValueAddress
  | recordNotFound
  | cannotUseIndexIdentifier
  | dustError (address : Nat)
  | messageNotFound
  | clientError
deriving DecidableEq, Repr

/-! ### Dust policy (`is_dust_allowed`, sync/mod.rs) -/

def DUST_ALLOWANCE_VALUE : Nat := 1000000

/-- One step of the first loop of `is_dust_allowed`: apply a pending
created/consumed delta `(amount, is_creation)` to the running
`(dust_allowance_balance, dust_outputs_amount)` pair. -/
def dustDeltaStep (acc : Int × Int) (out : Nat × Bool) : Int × Int :=
  match out.2 with
  | true =>
    if DUST_ALLOWANCE_VALUE ≤ out.1 then (acc.1 + (out.1 : Int), acc.2)
    else (acc.1, acc.2 + 1)
  | false =>
    if DUST_ALLOWANCE_VALUE ≤ out.1 then (acc.1 - (out.1 : Int), acc.2)
    else (acc.1, acc.2 - 1)

/-- One step of the second loop of `is_dust_allowed`: account for an output
`(amount, kind)` already present on the address. -/
def dustLedgerStep (acc : Int × Int) (out : Nat × OutputKind) : Int × Int :=
  match out.2 with
  | OutputKind.signatureLockedDustAllowance => (acc.1 + (out.1 : Int), acc.2)
  | OutputKind.signatureLockedSingle =>
    if out.1 < DUST_ALLOWANCE_VALUE then (acc.1, acc.2 + 1) else acc
  | OutputKind.treasury => acc

/-- `is_dust_allowed` (sync/mod.rs): `addressOutputs` is the `(amount, kind)`
list the function reads for the address (from the local account if known, else
from the node), `outputs` the pending `(amount, is_creation)` deltas of the
transaction being built.  Division is `Int.tdiv`, matching Rust `i64`
division. -/
def is_dust_allowed (address : Nat) (addressOutputs : List (Nat × OutputKind))
    (outputs : List (Nat × Bool)) : Except WalletError Unit :=
  let afterDeltas := outputs.foldl dustDeltaStep (0, 0)
  let afterLedger := addressOutputs.foldl dustLedgerStep afterDeltas
  let allowedDustAmount := min (afterLedger.1.tdiv 100000) 100
  if allowedDustAmount < afterLedger.2 then Except.error (WalletError.dustError address)
  else Except.ok ()

/-- Spec-side count of dust outputs: SingleSpend outputs with amount below
`DUST_ALLOWANCE_VALUE`. -/
def dustOutputsCount (outs : List (Nat × OutputKind)) : Nat :=
  outs.countP fun o =>
    decide (o.2 = OutputKind.signatureLockedSingle) && decide (o.1 < DUST_ALLOWANCE_VALUE)

/-- Spec-side dust-allowance balance: the sum of DustAllowance output amounts. -/
def dustAllowanceBalance (outs : List (Nat × OutputKind)) : Nat :=
  (outs.map fun o =>
    if o.2 = OutputKind.signatureLockedDustAllowance then o.1 else 0).sum

/-- A concrete address-output list used to instantiate the dust theorems:
two dust outputs and a 300000 dust-allowance balance. -/
def dustWitnessOutputs : List (Nat × OutputKind) :=
  [(100, OutputKind.signatureLockedSingle),
   (999999, OutputKind.signatureLockedSingle),
   (5000000, OutputKind.signatureLockedSingle),
   (300000, OutputKind.signatureLockedDustAllowance),
   (42, OutputKind.treasury)]

/-! ### Output-id fetching (`get_address_outputs`, sync/mod.rs) -/

/-- `Vec::dedup` from the Rust standard library: removes consecutive repeated
elements only. -/
def rustDedup {α : Type} [DecidableEq α] : List α → List α
  | [] => []
  | [a] => [a]
  | a :: b :: rest =>
    if a = b then rustDedup (b :: rest) else a :: rustDedup (b :: rest)

/-- `get_address_outputs` (sync/mod.rs): `nodeQuery includeSpent` stands for
the node call `get_address().outputs(..)` with the given `include_spent`
option.  On a full page of 1000 ids with spent outputs requested, the function
re-queries without spent outputs, appends, and runs `Vec::dedup`. -/
def get_address_outputs (fetchSpentOutputs : Bool) (nodeQuery : Bool → List Nat) : List Nat :=
  let addressOutputs := nodeQuery fetchSpentOutputs
  if fetchSpentOutputs && (addressOutputs.length == 1000) then
    rustDedup (addressOutputs ++ nodeQuery false)
  else
    addressOutputs

/-- A node-response oracle on which the merge of the two queries contains a
repeated output id that `Vec::dedup` does not remove: the first (spent
included) query returns the full page `0, 1, ..., 999` and the second query
returns `[0]` again. -/
def dupQuery : Bool → List Nat :=
  fun includeSpent => if includeSpent then List.range 1000 else [0]

/-! ### Account lookup by index (`AccountManager::get_account`) -/

/-- A stored account as seen by `get_account`: its id and its index. -/
structure AccountEntry where
  accountId : Nat
  index : Nat
deriving DecidableEq, Repr

/-- The `ok_or(RecordNotFound)` at the end of `get_account`: return the
remembered match, or `RecordNotFound` if there was none. -/
def finishScan : Option AccountEntry → Except WalletError AccountEntry
  | some a => Except.ok a
  | none => Except.error WalletError.recordNotFound

/-- The `AccountIdentifier::Index` arm of `AccountManager::get_account`: scan
the accounts, remembering the first index match; a second match aborts with
`CannotUseIndexIdentifier`; the trailing `ok_or` turns an empty scan into
`RecordNotFound`. -/
def get_account_by_index_loop :
    List AccountEntry → Nat → Option AccountEntry → Except WalletError AccountEntry
  | [], _, acc => finishScan acc
  | a :: rest, idx, none =>
    if a.index = idx then get_account_by_index_loop rest idx (some a)
    else get_account_by_index_loop rest idx none
  | a :: rest, idx, some a0 =>
    if a.index = idx then Except.error WalletError.cannotUseIndexIdentifier
    else get_account_by_index_loop rest idx (some a0)

/-- `AccountManager::get_account` restricted to an index identifier. -/
def get_account_by_index (accounts : List AccountEntry) (index : Nat) :
    Except WalletError AccountEntry :=
  get_account_by_index_loop accounts index none

/-- Decidable equality for `Except`, so that embedded results can be compared
by `decide` on concrete inputs. -/
instance {ε α : Type} [DecidableEq ε] [DecidableEq α] : DecidableEq (Except ε α) := fun x y =>
  match x, y with
  | Except.ok a, Except.ok b =>
    match decEq a b with
    | isTrue h => isTrue (by rw [h])
    | isFalse h => isFalse (by intro hc; cases hc; exact h rfl)
  | Except.error a, Except.error b =>
    match decEq a b with
    | isTrue h => isTrue (by rw [h])
    | isFalse h => isFalse (by intro hc; cases hc; exact h rfl)
  | Except.ok _, Except.error _ => isFalse (by intro hc; cases hc)
  | Except.error _, Except.ok _ => isFalse (by intro hc; cases hc)

/-- An example account table with a unique index 0 and a duplicated index 1. -/
def exAccounts : List AccountEntry := [⟨10, 0⟩, ⟨11, 1⟩, ⟨12, 1⟩]

/-! ### Input selection and the transfer engine (`SyncedAccount::transfer`) -/

/-- `input_selection::Input`: a candidate input address with its change flag
and available balance. -/
structure SelInput where
  address : Nat
  internal : Bool
  balance : Nat
deriving DecidableEq, Repr

/-- `RemainderValueStrategy` (message.rs). -/
inductive RemainderStrategy where
  | reuseAddress
  | changeAddress
  | accountAddress (address : Nat)
deriving DecidableEq, Repr

/-- A `Transfer` object: destination, amount, remainder strategy, and the
optional explicit `(address, outputs)` input. -/
structure TransferObj where
  address : Nat
  amount : Nat
  remainderStrategy : RemainderStrategy
  explicitInput : Option (Nat × List AddressOutput)
deriving DecidableEq, Repr

/-- Insert an input into a list sorted by descending balance (stable). -/
def insertDescByBalance (i : SelInput) : List SelInput → List SelInput
  | [] => [i]
  | a :: rest =>
    if a.balance ≤ i.balance then i :: a :: rest else a :: insertDescByBalance i rest

/-- Insertion sort by descending balance. -/
def sortDescByBalance : List SelInput → List SelInput
  | [] => []
  | a :: rest => insertDescByBalance a (sortDescByBalance rest)

/-- Accumulate inputs in order until the running sum reaches the target. -/
def accumulateUntil (target : Nat) : Nat → List SelInput → List SelInput
  | _, [] => []
  | acc, i :: rest =>
    if target ≤ acc then [] else i :: accumulateUntil target (acc + i.balance) rest

/-- Pick the smallest-balance input out of `c :: cs`. -/
def smallestCovering (c : SelInput) (cs : List SelInput) : SelInput :=
  cs.foldl (fun best i => if i.balance < best.balance then i else best) c

/-- Modelled from the spec: `input_selection::select_input` is declared in the
(absent) `sync/input_selection.rs` module; section 4.1 of the specification
describes it as: fail with `InsufficientFunds` when the sum of all supplied
inputs is below the target; otherwise prefer an exact-match single input,
then the smallest single input covering the target, and otherwise accumulate
change inputs first and public inputs second by descending balance, stopping
at first coverage. -/
def select_input (target : Nat) (available : List SelInput) :
    Except WalletError (List SelInput) :=
  if (available.map fun i => i.balance).sum < target then
    Except.error WalletError.insufficientFunds
  else
    match available.find? (fun i => i.balance == target) with
    | some i => Except.ok [i]
    | none =>
      match available.filter (fun i => decide (target ≤ i.balance)) with
      | c :: cs => Except.ok [smallestCovering c cs]
      | [] =>
        Except.ok (accumulateUntil target 0
          (sortDescByBalance (available.filter fun i => i.internal) ++
           sortDescByBalance (available.filter fun i => !i.internal)))

/-- The candidate-input filter of `SyncedAccount::select_inputs`:
an account address qualifies if it is not the deposit address (except, on the
first pass, when it has more than one available output), has positive
available balance, and is not in the locked-address set.  `availB` and
`availO` stand for `Address::available_balance` / `available_outputs`
(address.rs), keyed by the bech32 identity. -/
def availableForSelection (locked : List Nat) (t : TransferObj) (acct : List Address)
    (availB : Nat → Nat) (availO : Nat → List AddressOutput) (excludeDeposit : Bool) :
    List SelInput :=
  (acct.filter fun a =>
    (if excludeDeposit then a.address != t.address
     else (a.address != t.address || decide (1 < (availO a.address).length)))
    && decide (0 < availB a.address) && !(locked.contains a.address)).map
    fun a => ⟨a.address, a.internal, availB a.address⟩

/-- `SyncedAccount::select_inputs` (sync/mod.rs): select inputs while holding
the locked-address mutex; re-run the selection with the deposit address
strictly excluded when a remainder arises under `ReuseAddress` with an
intra-account deposit; then append the chosen addresses to the locked set.
Returns (selected inputs, remainder input, updated locked set). -/
def select_inputs (locked : List Nat) (t : TransferObj) (acct : List Address)
    (availB : Nat → Nat) (availO : Nat → List AddressOutput) :
    Except WalletError (List SelInput × Option SelInput × List Nat) :=
  match select_input t.amount (availableForSelection locked t acct availB availO false) with
  | Except.error e => Except.error e
  | Except.ok sel1 =>
    let hasRemainder := decide (t.amount < (sel1.map fun i => i.balance).sum)
    let reselect :=
      if hasRemainder && (t.remainderStrategy == RemainderStrategy.reuseAddress)
          && acct.any (fun a => a.address == t.address) then
        select_input t.amount (availableForSelection locked t acct availB availO true)
      else
        Except.ok sel1
    match reselect with
    | Except.error e => Except.error e
    | Except.ok sel =>
      Except.ok (sel, (if hasRemainder then sel.getLast? else none),
        locked ++ sel.map fun i => i.address)

/-- The unlock loop at the end of `SyncedAccount::transfer`: for each input
address, find its position in the locked set and remove it. -/
def removeLocked (locked : List Nat) (sel : List Nat) : List Nat :=
  sel.foldl (fun acc x => acc.erase x) locked

/-- The observable outcome of one `transfer` call: the returned value (a
broadcast message id, or an error), the state of the process-wide
locked-address set when the call returns, and whether the call reached
`perform_transfer` (everything from essence building to node I/O). -/
structure TransferOutcome where
  result : Except WalletError Nat
  lockedAfter : List Nat
  contactedNode : Bool
deriving DecidableEq, Repr

/-- The input-selection phase of `SyncedAccount::transfer`: either use the
explicit input (locking its address after checking it belongs to the account,
with `InsufficientFunds` when it does not), or run `select_inputs` and pair
every selected address with its available outputs. -/
def transferSelectPhase (acct : List Address) (availB : Nat → Nat)
    (availO : Nat → List AddressOutput) (locked : List Nat) (t : TransferObj) :
    Except WalletError (List (SelInput × List AddressOutput) × Option SelInput × List Nat) :=
  match t.explicitInput with
  | some (addr, addressInputs) =>
    match acct.find? (fun a => a.address == addr) with
    | some a =>
      Except.ok ([(⟨a.address, a.internal,
          addressInputs.foldl (fun acc i => acc + i.amount) 0⟩, addressInputs)],
        none, locked ++ [a.address])
    | none => Except.error WalletError.insufficientFunds
  | none =>
    match select_inputs locked t acct availB availO with
    | Except.error e => Except.error e
    | Except.ok (sel, remainder, locked1) =>
      Except.ok (sel.map (fun i => (i, availO i.address)), remainder, locked1)

/-- The part of `transfer` after the balance and remainder-address
preconditions: run the selection phase (any error propagates with the locked
set untouched and no node contact), then hand over to `perform_transfer`
(represented by its outcome `performResult`), and finally remove the input
addresses from the locked set whatever the outcome was. -/
def transferAfterChecks (acct : List Address) (availB : Nat → Nat)
    (availO : Nat → List AddressOutput) (performResult : Except WalletError Nat)
    (locked : List Nat) (t : TransferObj) : TransferOutcome :=
  match transferSelectPhase acct availB availO locked t with
  | Except.error e => ⟨Except.error e, locked, false⟩
  | Except.ok (inputs, _remainder, locked1) =>
    ⟨performResult, removeLocked locked1 (inputs.map fun i => i.1.address), true⟩

/-- The strategy-forcing prologue of `transfer`: if the deposit address
belongs to the account, the remainder strategy is replaced by
`ReuseAddress`. -/
def forceReuse (acct : List Address) (t : TransferObj) : TransferObj :=
  if acct.any (fun a => a.address == t.address) then
    { t with remainderStrategy := RemainderStrategy.reuseAddress }
  else t

/-- `SyncedAccount::transfer` (sync/mod.rs): force `ReuseAddress` for
intra-account deposits, check `amount ≤ balance.total` (`balanceTotal`), check
that an `AccountAddress` remainder target belongs to the account, then select
and lock inputs, run `perform_transfer`, and release the locked addresses. -/
def transfer (acct : List Address) (balanceTotal : Nat) (availB : Nat → Nat)
    (availO : Nat → List AddressOutput) (performResult : Except WalletError Nat)
    (locked : List Nat) (t : TransferObj) : TransferOutcome :=
  let t1 := forceReuse acct t
  if balanceTotal < t1.amount then
    ⟨Except.error WalletError.insufficientFunds, locked, false⟩
  else
    match t1.remainderStrategy with
    | RemainderStrategy.accountAddress r =>
      if acct.any (fun a => a.address == r) then
        transferAfterChecks acct availB availO performResult locked t1
      else
        ⟨Except.error WalletError.invalidRemainderValueAddress, locked, false⟩
    | _ => transferAfterChecks acct availB availO performResult locked t1

/-- A two-address account used to instantiate the transfer theorems. -/
def exAddrOne : Address := ⟨1, false, 0, 5, []⟩

/-- The second address of the example account. -/
def exAddrTwo : Address := ⟨2, false, 1, 5, []⟩

/-- The example account: two public addresses with balance 5 each. -/
def exAcct : List Address := [exAddrOne, exAddrTwo]

/-- Available balances of the example account. -/
def exAvailB : Nat → Nat := fun adr => if adr == 1 || adr == 2 then 5 else 0

/-- Available outputs of the example account (none are pending, and the
selection path under test never reads them). -/
def exAvailO : Nat → List AddressOutput := fun _ => []

/-- A transfer of 5 to the external address 9. -/
def exTransferFive : TransferObj := ⟨9, 5, RemainderStrategy.changeAddress, none⟩

/-- A transfer of 3 to the external address 9 whose remainder strategy names
address 8, which is not in the account. -/
def exTransferBadRemainder : TransferObj :=
  ⟨9, 3, RemainderStrategy.accountAddress 8, none⟩

/-- A transfer of 3 to the external address 9 with an explicit input on
address 8, which is not in the account, and a remainder strategy naming the
unknown address 8 as well. -/
def exTransferBadInputBadRemainder : TransferObj :=
  ⟨9, 3, RemainderStrategy.accountAddress 8, some (8, [])⟩

/-- A transfer of 3 to the external address 9 with an explicit input on
address 8 (not in the account) and a plain change-address strategy. -/
def exTransferBadInput : TransferObj :=
  ⟨9, 3, RemainderStrategy.changeAddress, some (8, [])⟩

/-! ### Address-list trimming in `perform_sync` and `sync_address_list` -/

/-- An address is unused when its output map is empty (the condition driving
the trimming loop in `perform_sync`). -/
def isUnusedAddress (a : Address) : Bool := a.outputs.isEmpty

/-- An address is used when it has at least one output. -/
def isUsedAddress (a : Address) : Bool := !a.outputs.isEmpty

/-- The retention filter of `sync_address_list`: a change address with no
outputs is dropped from the synced batch. -/
def keepInAddressList (a : Address) : Bool := !(a.internal && a.outputs.isEmpty)

/-- The addresses `sync_address_list` returns out of a synced batch. -/
def sync_address_list_retained (synced : List Address) : List Address :=
  synced.filter keepInAddressList

/-- The trimming loop at the end of `perform_sync`, with its running state:
whether the previous address was unused, and the unused addresses currently
set aside (`ignored_addresses`).  Set-aside addresses are flushed back when a
used address follows, and dropped at the end of the list. -/
def trimGo : Bool → List Address → List Address → List Address
  | _, _, [] => []
  | true, ignored, a :: rest =>
    if isUnusedAddress a then trimGo true (ignored ++ [a]) rest
    else ignored ++ a :: trimGo false [] rest
  | false, _, a :: rest => a :: trimGo (isUnusedAddress a) [] rest

/-- The `addresses_to_save` computation of `perform_sync`. -/
def trimAddresses (found : List Address) : List Address := trimGo false [] found

/-- The address sweep of `sync_messages`: every account address outside the
skip list is synced (`syncOne` giving its refreshed balance and outputs) and
returned, with no retention filter. -/
def sweepAddresses (accountAddresses : List Address) (skip : List Address)
    (syncOne : Address → Address) : List Address :=
  (accountAddresses.filter fun a => !(skip.contains a)).map syncOne

/-- The `found_addresses` list that `perform_sync` accumulates before
trimming: the retained discovery results, then (when the `SyncMessages` step
runs) the swept account addresses. -/
def perform_sync_found (discovered accountAddresses : List Address)
    (syncOne : Address → Address) (doSyncMessages : Bool) : List Address :=
  let found := sync_address_list_retained discovered
  if doSyncMessages then
    found ++ sweepAddresses accountAddresses found syncOne
  else found

/-- The address list of the `SyncedAccountData` returned by `perform_sync`:
the accumulated addresses after the trailing-unused trimming loop. -/
def perform_sync_addresses (discovered accountAddresses : List Address)
    (syncOne : Address → Address) (doSyncMessages : Bool) : List Address :=
  trimAddresses (perform_sync_found discovered accountAddresses syncOne doSyncMessages)

/-- True when the last two addresses of the list are not both unused — that
is, when at most one trailing address is unused. -/
def lastTwoOk : List Address → Bool
  | [] => true
  | [_] => true
  | [x, y] => !(isUnusedAddress x && isUnusedAddress y)
  | _ :: y :: z :: rest => lastTwoOk (y :: z :: rest)

/-- A change address with no outputs. -/
def emptyInternalAddress : Address := ⟨100, true, 0, 0, []⟩

/-! ### Balance-change events (`AccountSynchronizer::get_events`) -/

/-- A balance-change event value (`BalanceChange` in event.rs): either an
amount received or an amount spent, as an unsigned 64-bit quantity. -/
inductive BalanceChange where
  | received (amount : Nat)
  | spent (amount : Nat)
deriving DecidableEq, Repr

/-- The Rust cast `as u64` applied to an `i64` value: reduction modulo
`2 ^ 64`. -/
def u64OfInt (i : Int) : Nat := (i % 18446744073709551616).toNat

/-- The per-output loop of the balance-event computation: one event per
output of the post-sync address that was absent pre-sync, spent outputs
counting as spent and the rest as received, each carrying the originating
message id. -/
def newOutputEvents (beforeOutputIds : List Nat) (afterOutputs : List (Nat × AddressOutput)) :
    List (BalanceChange × Option Nat) :=
  (afterOutputs.filter fun p => !(beforeOutputIds.contains p.1)).map
    fun p => (if p.2.isSpent then BalanceChange.spent p.2.amount
              else BalanceChange.received p.2.amount, some p.2.messageId)

/-- The signed value of a balance-change event: received positive, spent
negative. -/
def balanceChangeValue : BalanceChange → Int
  | BalanceChange.received n => (n : Int)
  | BalanceChange.spent n => -(n : Int)

/-- Signed sum of a list of balance-change events. -/
def signedEventSum (events : List (BalanceChange × Option Nat)) : Int :=
  (events.map fun e => balanceChangeValue e.1).sum

/-- The balance-change events `get_events` emits for one address
(sync/mod.rs): nothing when the balance is unchanged; otherwise the per-output
events (when spent outputs are synced), plus a residual event with no message
id whenever no per-output event was emitted or their signed sum differs from
the balance delta.  A positive delta yields
`received((balance_change - output_change_balance) as u64)` — the cast wraps
when the per-output sum exceeds the delta — and a non-positive delta yields
`spent(abs(balance_change - output_change_balance))`. -/
def addressBalanceChangeEvents (syncSpentOutputs : Bool) (beforeBalance : Nat)
    (beforeOutputIds : List Nat) (afterAddress : Address) :
    List (BalanceChange × Option Nat) :=
  if afterAddress.balance == beforeBalance then []
  else
    let perOutput := if syncSpentOutputs then
        newOutputEvents beforeOutputIds afterAddress.outputs
      else []
    let outputChangeBalance := signedEventSum perOutput
    let balanceChange : Int := (afterAddress.balance : Int) - (beforeBalance : Int)
    if perOutput.isEmpty || !(outputChangeBalance == balanceChange) then
      let residual :=
        if 0 < balanceChange then
          BalanceChange.received (u64OfInt (balanceChange - outputChangeBalance))
        else
          BalanceChange.spent (balanceChange - outputChangeBalance).natAbs
      perOutput ++ [(residual, none)]
    else perOutput

/-- An output of 50 that existed before the sync and is now spent. -/
def wrapBugOutputSpent : AddressOutput :=
  ⟨1, 50, true, 7, OutputKind.signatureLockedSingle, 11⟩

/-- A new output of 100 received in the synced transaction. -/
def wrapBugOutputNew : AddressOutput :=
  ⟨2, 100, false, 7, OutputKind.signatureLockedSingle, 12⟩

/-- The post-sync state of address 7: the old output of 50 has been consumed
(it stays in the map, marked spent) and a new output of 100 arrived, so the
balance rose from 50 to 100. -/
def wrapBugAfterAddress : Address :=
  ⟨7, false, 0, 100, [(1, wrapBugOutputSpent), (2, wrapBugOutputNew)]⟩

/-! ### Account synchronization (`AccountSynchronizer::execute`) -/

/-- A stored account message, reduced to the data the sync diffing reads: its
id and tri-state confirmation. -/
structure SyncMessage where
  msgId : Nat
  confirmed : Option Bool
deriving DecidableEq, Repr

/-- The persisted account state touched by a sync pass. -/
structure WAccount where
  addresses : List Address
  messages : List SyncMessage
  lastSyncedAt : Option Nat
deriving DecidableEq, Repr

/-- The node's answers during a sync, fixed for the duration of the runs
("no ledger change"): the fetched outputs and balance per bech32 address,
and availability (`get_message` not returning 404) and ledger-inclusion state
per message id. -/
structure Ledger where
  outputsAt : Nat → List AddressOutput
  balanceAt : Nat → Nat
  msgAvailable : Nat → Bool
  msgConfirmed : Nat → Option Bool

/-- Deterministic address derivation: the bech32 identity generated for a key
index and internal flag (`get_iota_address`). -/
def encodeAddr (idx : Nat) (internal : Bool) : Nat := 2 * idx + cond internal 1 0

/-- Lookup in an output map. -/
def lookupOutput (m : List (Nat × AddressOutput)) (oid : Nat) : Option AddressOutput :=
  (m.find? fun p => p.1 == oid).map fun p => p.2

/-- `HashMap::insert`: replace the entry in place, or append a new one. -/
def upsertOutput (m : List (Nat × AddressOutput)) (o : AddressOutput) :
    List (Nat × AddressOutput) :=
  if m.any (fun p => p.1 == o.outputId) then
    m.map fun p => if p.1 == o.outputId then (p.1, o) else p
  else m ++ [(o.outputId, o)]

/-- The per-output skip of `sync_address`: a fetched output already stored as
spent is not fetched again and leaves the map untouched. -/
def notKnownSpent (m : List (Nat × AddressOutput)) (o : AddressOutput) : Bool :=
  match lookupOutput m o.outputId with
  | some ex => !ex.isSpent
  | none => true

/-- The output-map update of `sync_address`: every fetched output not skipped
is inserted (last write wins). -/
def syncAddressOutputs (L : Ledger) (adr : Nat) (m : List (Nat × AddressOutput)) :
    List (Nat × AddressOutput) :=
  ((L.outputsAt adr).filter (notKnownSpent m)).foldl upsertOutput m

/-- The confirmation recorded for a message found through an output: a spent
output makes the message definitionally confirmed. -/
def confOfOutput (L : Ledger) (o : AddressOutput) : Option Bool :=
  if o.isSpent then some true else L.msgConfirmed o.messageId

/-- Whether the account already knows the message with a decided confirmation
state (the `get_message` skip of `sync_address`). -/
def knownSome (K : List SyncMessage) (mid : Nat) : Bool :=
  K.any fun k => k.msgId == mid && k.confirmed.isSome

/-- The message (if any) that `sync_address` collects for a fetched output. -/
def syncedMessageFor (L : Ledger) (K : List SyncMessage) (o : AddressOutput) :
    Option SyncMessage :=
  if knownSome K o.messageId then none
  else if L.msgAvailable o.messageId then some ⟨o.messageId, confOfOutput L o⟩
  else none

/-- The messages `sync_address` collects for one address. -/
def syncAddressMessages (L : Ledger) (K : List SyncMessage)
    (m : List (Nat × AddressOutput)) (adr : Nat) : List SyncMessage :=
  ((L.outputsAt adr).filter (notKnownSpent m)).filterMap (syncedMessageFor L K)

/-- `sync_address` applied to an address object: refresh the balance from the
node and merge the fetched outputs into the map. -/
def syncAddressFull (L : Ledger) (a : Address) : Address :=
  { a with balance := L.balanceAt a.address,
           outputs := syncAddressOutputs L a.address a.outputs }

/-- The output `sync_messages` works with for one fetched output: the stored
output when it is already marked spent, else the freshly fetched one. -/
def effOutput (m0 : List (Nat × AddressOutput)) (o : AddressOutput) : AddressOutput :=
  match lookupOutput m0 o.outputId with
  | some ex => if ex.isSpent then ex else o
  | none => o

/-- The output-map update of the `sync_messages` sweep: every fetched output
is inserted, the stored version winning when it is already spent. -/
def sweepOutputs (L : Ledger) (adr : Nat) (m0 : List (Nat × AddressOutput)) :
    List (Nat × AddressOutput) :=
  (L.outputsAt adr).foldl (fun m o => upsertOutput m (effOutput m0 o)) m0

/-- The messages the `sync_messages` sweep collects for one address: unlike
`sync_address`, outputs stored as spent are not skipped — only messages whose
confirmation is already known are. -/
def sweepMessagesFor (L : Ledger) (knownConf : List Nat) (a : Address) :
    List SyncMessage :=
  (L.outputsAt a.address).filterMap fun o =>
    let oEff := effOutput a.outputs o
    if knownConf.contains oEff.messageId then none
    else if L.msgAvailable oEff.messageId then
      some ⟨oEff.messageId, confOfOutput L oEff⟩
    else none

/-- `sync_messages` applied to one account address. -/
def sweepAddressFull (L : Ledger) (a : Address) : Address :=
  { a with balance := L.balanceAt a.address,
           outputs := sweepOutputs L a.address a.outputs }

/-- The outputs carried over into a discovery address object: those of the
matching account address, if any. -/
def mkSyncAddrOuts (acct : WAccount) (adr : Nat) : List (Nat × AddressOutput) :=
  match acct.addresses.find? (fun a => a.address == adr) with
  | some a => a.outputs
  | none => []

/-- The address object `sync_addresses` builds for a derivation index: the
generated bech32 identity, with the outputs of the matching account address
if one exists (balance starts at 0 and is refreshed by the sync). -/
def mkSyncAddr (acct : WAccount) (idx : Nat) (internal : Bool) : Address :=
  ⟨encodeAddr idx internal, internal, idx, 0,
   mkSyncAddrOuts acct (encodeAddr idx internal)⟩

/-- One discovery batch: for each index in `[i, i + gap)`, the public and then
the internal address. -/
def discoveryBatch (acct : WAccount) (i gap : Nat) : List Address :=
  (List.range gap).flatMap fun j =>
    [mkSyncAddr acct (i + j) false, mkSyncAddr acct (i + j) true]

/-- The addresses one discovery batch contributes after syncing and the
`sync_address_list` retention filter. -/
def batchRetained (L : Ledger) (acct : WAccount) (i gap : Nat) : List Address :=
  sync_address_list_retained ((discoveryBatch acct i gap).map (syncAddressFull L))

/-- The messages one discovery batch contributes. -/
def batchMessages (L : Ledger) (acct : WAccount) (K : List SyncMessage) (i gap : Nat) :
    List SyncMessage :=
  (discoveryBatch acct i gap).flatMap fun a => syncAddressMessages L K a.outputs a.address

/-- The gap-limit discovery loop of `sync_addresses`, fuelled: sync the batch,
retain it through `sync_address_list`, and stop when the batch produced no
messages and only empty addresses. -/
def sync_addresses_go (L : Ledger) (acct : WAccount) (K : List SyncMessage) :
    Nat → Nat → Nat → List Address → List SyncMessage →
    Option (List Address × List SyncMessage)
  | 0, _, _, _, _ => none
  | fuel + 1, i, gap, accA, accM =>
    if (batchMessages L acct K i gap).isEmpty
        && (batchRetained L acct i gap).all (fun a => a.outputs.isEmpty) then
      some (accA ++ batchRetained L acct i gap, accM ++ batchMessages L acct K i gap)
    else
      sync_addresses_go L acct K fuel (i + gap) gap
        (accA ++ batchRetained L acct i gap) (accM ++ batchMessages L acct K i gap)

/-- The ids of the account messages with a decided confirmation (the skip
list of `sync_messages`). -/
def knownConfIds (acct : WAccount) : List Nat :=
  (acct.messages.filter fun m => m.confirmed.isSome).map fun m => m.msgId

/-- The `new_messages` filter of `perform_sync`: keep a found message unless
the account already stores it with the same confirmation. -/
def newMessagesFilter (acct : WAccount) (found : List SyncMessage) : List SyncMessage :=
  found.filter fun fm =>
    !acct.messages.any fun m => m.msgId == fm.msgId && m.confirmed == fm.confirmed

/-- The data a full sync pass returns: addresses to save and new messages. -/
structure SyncedData where
  addresses : List Address
  messages : List SyncMessage
deriving DecidableEq, Repr

/-- The account addresses the `SyncMessages` sweep visits: those not in the
skip list produced by discovery. -/
def sweptList (acct : WAccount) (foundA : List Address) : List Address :=
  acct.addresses.filter fun a => !(foundA.contains a)

/-- `perform_sync` with the default steps (`SyncAddresses(None)` then
`SyncMessages`): run discovery, filter already-known messages, sweep the
account addresses not found by discovery, and trim the accumulated address
list. -/
def perform_sync_full (L : Ledger) (acct : WAccount) (addressIndex gap fuel : Nat) :
    Option SyncedData :=
  match sync_addresses_go L acct acct.messages fuel addressIndex gap [] [] with
  | none => none
  | some (foundA, foundM) =>
    some ⟨trimAddresses (foundA ++ (sweptList acct foundA).map (sweepAddressFull L)),
          newMessagesFilter acct foundM ++
            (sweptList acct foundA).flatMap (sweepMessagesFor L (knownConfIds acct))⟩

/-- Modelled from the spec: `Account::append_addresses` lives in account.rs,
which is absent from src/.  The data model of the specification keys addresses
by identity ("Ordered list of Addresses (by derivation index × internal
flag)", recognized "by bech32 equality"), so appending replaces the entry with
the same bech32 identity in place and appends genuinely new addresses. -/
def upsertAddress (l : List Address) (a : Address) : List Address :=
  if l.any (fun x => x.address == a.address) then
    l.map fun x => if x.address == a.address then a else x
  else l ++ [a]

/-- Append a batch of addresses (see `upsertAddress`). -/
def appendAddresses (l : List Address) (new : List Address) : List Address :=
  new.foldl upsertAddress l

/-- Modelled from the spec: `Account::append_messages` (account.rs, absent
from src/); messages are "identified by message_id" in the specification's
data model, so appending replaces the entry with the same id and appends new
ones. -/
def upsertMessage (l : List SyncMessage) (m : SyncMessage) : List SyncMessage :=
  if l.any (fun x => x.msgId == m.msgId) then
    l.map fun x => if x.msgId == m.msgId then m else x
  else l ++ [m]

/-- Append a batch of messages (see `upsertMessage`). -/
def appendMessages (l : List SyncMessage) (new : List SyncMessage) : List SyncMessage :=
  new.foldl upsertMessage l

/-- Modelled from the spec: `Account::latest_address` (account.rs, absent from
src/) is the account's public address with the highest key index. -/
def latestAddressIndex (acct : WAccount) : Nat :=
  (acct.addresses.filter fun a => !a.internal).foldl (fun m a => max m a.keyIndex) 0

/-- The gap limit `AccountSynchronizer::new` picks: 10 when syncing from
scratch (latest index 0), 1 otherwise. -/
def gapFor (acct : WAccount) : Nat :=
  if latestAddressIndex acct == 0 then 10 else 1

/-- The observable outcome of `AccountSynchronizer::execute`: the persisted
account and the emitted events. -/
structure ExecOutcome where
  account : WAccount
  newTransactionEvents : List SyncMessage
  confirmationChangeEvents : List SyncMessage
  balanceChangeEvents : List (Nat × BalanceChange × Option Nat)
deriving DecidableEq, Repr

/-- The balance-change events of one post-sync address against the pre-sync
snapshot (see `addressBalanceChangeEvents`). -/
def executeBalanceEvents (syncSpent : Bool) (addressesBefore : List Address)
    (a : Address) : List (Nat × BalanceChange × Option Nat) :=
  match addressesBefore.find? (fun b => b.address == a.address) with
  | some b =>
    (addressBalanceChangeEvents syncSpent b.balance (b.outputs.map fun p => p.1) a).map
      fun e => (a.address, e)
  | none =>
    (addressBalanceChangeEvents syncSpent 0 [] a).map fun e => (a.address, e)

/-- The outcome `execute` assembles from the sync data: the appended account
with the refreshed timestamp, and the three event diffs against the pre-sync
snapshots. -/
def executeOutcome (syncSpent : Bool) (acct : WAccount) (data : SyncedData)
    (now : Nat) : ExecOutcome :=
  ⟨⟨appendAddresses acct.addresses data.addresses,
    appendMessages acct.messages data.messages,
    some now⟩,
   data.messages.filter fun m => !acct.messages.any fun mb => mb.msgId == m.msgId,
   data.messages.filter fun m =>
     acct.messages.any fun mb => mb.msgId == m.msgId && !(mb.confirmed == m.confirmed),
   (appendAddresses acct.addresses data.addresses).flatMap
     (executeBalanceEvents syncSpent acct.addresses)⟩

/-- `AccountSynchronizer::execute` with the default configuration: sync from
the latest address index, append the results, refresh the last-synced
timestamp, and diff the snapshots into events. -/
def execute_model (L : Ledger) (syncSpent : Bool) (fuel : Nat) (acct : WAccount)
    (now : Nat) : Option ExecOutcome :=
  match perform_sync_full L acct (latestAddressIndex acct) (gapFor acct) fuel with
  | none => none
  | some data => some (executeOutcome syncSpent acct data now)

/-- Default outcome used to read an optional execution result. -/
def execOutD (o : Option ExecOutcome) : ExecOutcome :=
  o.getD ⟨⟨[], [], none⟩, [], [], []⟩

/-- A ledger with no outputs, balances or messages at all. -/
def benignLedger : Ledger :=
  ⟨fun _ => [], fun _ => 0, fun _ => false, fun _ => none⟩

/-- A fresh account: one public address at index 0, nothing else. -/
def benignAccount : WAccount := ⟨[⟨0, false, 0, 0, []⟩], [], none⟩

/-- First sync of the fresh account, at time 1. -/
def benignOut1 : ExecOutcome := execOutD (execute_model benignLedger true 3 benignAccount 1)

/-- Second sync of the fresh account, at time 2, on the state left by the
first. -/
def benignOut2 : ExecOutcome :=
  execOutD (execute_model benignLedger true 3 benignOut1.account 2)

/-- A spent output of 50 on address 0 whose message 5 the account never
recorded. -/
def spentOutput : AddressOutput := ⟨1, 50, true, 0, OutputKind.signatureLockedSingle, 5⟩

/-- The ledger for the second counterexample: address 0 carries the spent
output, message 5 is available on the node, balances are all 0 (consistent:
the only output is spent). -/
def spentLedger : Ledger :=
  ⟨fun adr => if adr == 0 then [spentOutput] else [],
   fun _ => 0,
   fun mid => mid == 5,
   fun _ => none⟩

/-- The account for the second counterexample: its only (latest) public
address holds the spent output, and its message list is empty. -/
def spentAccount : WAccount := ⟨[⟨0, false, 0, 0, [(1, spentOutput)]⟩], [], none⟩

/-- First sync of the spent-output account, at time 1. -/
def spentOut1 : ExecOutcome := execOutD (execute_model spentLedger true 3 spentAccount 1)

/-- Second sync of the spent-output account, at time 2. -/
def spentOut2 : ExecOutcome :=
  execOutD (execute_model spentLedger true 3 spentOut1.account 2)

/-!
## Theorems

Helper lemmas first, then one theorem (plus witness or counterexample) per
claim of the specification review.
-/

/-- The second loop of `is_dust_allowed` adds the address's dust-allowance
balance to the first component and its dust-output count to the second. -/
theorem dust_ledger_fold (outs : List (Nat × OutputKind)) (b c : Int) :
    outs.foldl dustLedgerStep (b, c) =
      (b + (dustAllowanceBalance outs : Int), c + (dustOutputsCount outs : Int)) := by
  induction outs generalizing b c with
  | nil => simp [dustAllowanceBalance, dustOutputsCount]
  | cons o rest ih =>
    obtain ⟨amt, k⟩ := o
    cases k with
    | signatureLockedSingle =>
      by_cases hamt : amt < DUST_ALLOWANCE_VALUE
      · simp only [List.foldl_cons, dustLedgerStep, if_pos hamt, ih,
          dustAllowanceBalance, dustOutputsCount, List.map_cons, List.sum_cons,
          List.countP_cons]
        simp [hamt]
        omega
      · simp only [List.foldl_cons, dustLedgerStep, if_neg hamt, ih,
          dustAllowanceBalance, dustOutputsCount, List.map_cons, List.sum_cons,
          List.countP_cons]
        simp [hamt]
    | signatureLockedDustAllowance =>
      simp only [List.foldl_cons, dustLedgerStep, ih,
        dustAllowanceBalance, dustOutputsCount, List.map_cons, List.sum_cons,
        List.countP_cons]
      simp
      omega
    | treasury =>
      simp only [List.foldl_cons, dustLedgerStep, ih,
        dustAllowanceBalance, dustOutputsCount, List.map_cons, List.sum_cons,
        List.countP_cons]
      simp

/-- Claim C1: on an address currently holding `dustOutputsCount outs` dust
outputs and dust-allowance balance `dustAllowanceBalance outs`, the dust check
permits creating one more dust output (a SingleSpend output with amount below
1,000,000) iff `k + 1 ≤ min (B / 100000) 100`, and otherwise it fails with a
dust error for that address. -/
theorem dust_check_permits_one_more_dust_output_iff (address : Nat)
    (outs : List (Nat × OutputKind)) (a : Nat) (ha : a < DUST_ALLOWANCE_VALUE) :
    (is_dust_allowed address outs [(a, true)] = Except.ok () ↔
      dustOutputsCount outs + 1 ≤ min (dustAllowanceBalance outs / 100000) 100)
    ∧ (¬ dustOutputsCount outs + 1 ≤ min (dustAllowanceBalance outs / 100000) 100 →
      is_dust_allowed address outs [(a, true)] =
        Except.error (WalletError.dustError address)) := by
  have hdelta : List.foldl dustDeltaStep ((0 : Int), (0 : Int)) [((a : Nat), true)] = (0, 1) := by
    simp [dustDeltaStep, Nat.not_le.mpr ha]
  have hdiv : ((0 : Int) + (dustAllowanceBalance outs : Int)).tdiv 100000
      = ((dustAllowanceBalance outs / 100000 : Nat) : Int) := by
    simp [Int.tdiv]
  have hcond : (min (((0 : Int) + (dustAllowanceBalance outs : Int)).tdiv 100000) 100 <
        (1 : Int) + (dustOutputsCount outs : Int)) ↔
      ¬ (dustOutputsCount outs + 1 ≤ min (dustAllowanceBalance outs / 100000) 100) := by
    rw [hdiv]; omega
  simp only [is_dust_allowed, hdelta, dust_ledger_fold]
  constructor
  · constructor
    · intro h
      by_contra hc
      rw [if_pos (hcond.mpr hc)] at h
      exact Except.noConfusion h
    · intro h
      rw [if_neg]
      intro hlt
      exact (hcond.mp hlt) h
  · intro h
    rw [if_pos (hcond.mpr h)]

/-- Witness for C1: on `dustWitnessOutputs` (2 dust outputs, allowance balance
300000, so `min (300000 / 100000) 100 = 3`), creating a third dust output of
amount 5 is permitted. -/
theorem dust_check_permits_one_more_dust_output_iff_witness :
    5 < DUST_ALLOWANCE_VALUE ∧
      ((is_dust_allowed 7 dustWitnessOutputs [(5, true)] = Except.ok () ↔
        dustOutputsCount dustWitnessOutputs + 1 ≤
          min (dustAllowanceBalance dustWitnessOutputs / 100000) 100)
      ∧ (¬ dustOutputsCount dustWitnessOutputs + 1 ≤
            min (dustAllowanceBalance dustWitnessOutputs / 100000) 100 →
        is_dust_allowed 7 dustWitnessOutputs [(5, true)] =
          Except.error (WalletError.dustError 7))) :=
  ⟨by decide, dust_check_permits_one_more_dust_output_iff 7 dustWitnessOutputs 5 (by decide)⟩

/-- Membership is preserved by `Vec::dedup`. -/
theorem rustDedup_mem {α : Type} [DecidableEq α] (l : List α) (x : α) :
    x ∈ rustDedup l ↔ x ∈ l := by
  induction l with
  | nil => simp [rustDedup]
  | cons a rest ih =>
    cases rest with
    | nil => simp [rustDedup]
    | cons b rest2 =>
      by_cases hab : a = b
      · subst hab
        rw [rustDedup, if_pos rfl]
        rw [ih]
        simp
      · rw [rustDedup, if_neg hab]
        simp [ih]

/-- The head of `Vec::dedup` of a nonempty list is the head value of the
list. -/
theorem rustDedup_head {α : Type} [DecidableEq α] (r : List α) (x : α) :
    (rustDedup (x :: r)).head? = some x := by
  induction r generalizing x with
  | nil => simp [rustDedup]
  | cons y r2 ih =>
    by_cases hxy : x = y
    · subst hxy
      rw [rustDedup, if_pos rfl]
      exact ih x
    · rw [rustDedup, if_neg hxy]
      simp

/-- `Vec::dedup` leaves no two equal adjacent elements. -/
theorem rustDedup_chain {α : Type} [DecidableEq α] (l : List α) :
    (rustDedup l).Chain' (fun x y => x ≠ y) := by
  induction l with
  | nil => simp [rustDedup]
  | cons a rest ih =>
    cases rest with
    | nil => simp [rustDedup]
    | cons b rest2 =>
      by_cases hab : a = b
      · subst hab
        rw [rustDedup, if_pos rfl]
        exact ih
      · rw [rustDedup, if_neg hab]
        rw [List.chain'_cons']
        refine ⟨?_, ih⟩
        intro y hy
        rw [rustDedup_head] at hy
        cases hy
        exact hab

set_option maxRecDepth 400000 in
/-- Counterexample to claim C7: when the spent query returns the full page
`0, ..., 999` and the unspent re-query returns `[0]`, the merged result still
contains output id 0 twice, because `Vec::dedup` only removes adjacent
duplicates; so the result is not the duplicate-free merge the claim
describes. -/
theorem get_address_outputs_duplicate_counterexample :
    (get_address_outputs true dupQuery).count 0 = 2 ∧
      ¬ (get_address_outputs true dupQuery).Nodup := by
  refine ⟨by decide, ?_⟩
  intro h
  have h2 : (get_address_outputs true dupQuery).count 0 = 2 := by decide
  have h1 := (List.nodup_iff_count_le_one.mp h) 0
  omega

/-- Claim C7 (amended): if spent outputs are not requested or the first answer
is not exactly 1000 ids long, `get_address_outputs` returns the first answer
unchanged; in the re-query case it returns a list with the same members as the
concatenation of the two answers in which only adjacent duplicate ids have
been collapsed (`Vec::dedup`), so non-adjacent duplicates may remain. -/
theorem get_address_outputs_requery_spec (fetchSpentOutputs : Bool)
    (nodeQuery : Bool → List Nat) :
    (¬ (fetchSpentOutputs = true ∧ (nodeQuery fetchSpentOutputs).length = 1000) →
      get_address_outputs fetchSpentOutputs nodeQuery = nodeQuery fetchSpentOutputs)
    ∧ (fetchSpentOutputs = true → (nodeQuery true).length = 1000 →
      ((∀ x, x ∈ get_address_outputs true nodeQuery ↔
          x ∈ nodeQuery true ++ nodeQuery false)
        ∧ (get_address_outputs true nodeQuery).Chain' (fun x y => x ≠ y))) := by
  constructor
  · intro h
    rw [get_address_outputs]
    rw [if_neg]
    intro hc
    rw [Bool.and_eq_true, beq_iff_eq] at hc
    exact h ⟨hc.1, hc.2⟩
  · intro hspent hlen
    subst hspent
    have hguard : (true && ((nodeQuery true).length == 1000)) = true := by
      simp [hlen]
    rw [get_address_outputs, if_pos hguard]
    exact ⟨fun x => rustDedup_mem _ x, rustDedup_chain _⟩

/-- Witness for C7: with the oracle `dupQuery` but spent outputs not
requested, the function returns the single (unspent) answer `[0]`
unchanged. -/
theorem get_address_outputs_requery_spec_witness :
    get_address_outputs false dupQuery = dupQuery false :=
  (get_address_outputs_requery_spec false dupQuery).1 (by simp)

/-- Once a first index match is held, any further match aborts the scan of
`get_account` with `CannotUseIndexIdentifier`. -/
theorem get_account_loop_second_match (l : List AccountEntry) (idx : Nat) (a0 : AccountEntry)
    (h : l.filter (fun a => a.index == idx) ≠ []) :
    get_account_by_index_loop l idx (some a0) =
      Except.error WalletError.cannotUseIndexIdentifier := by
  induction l with
  | nil => simp at h
  | cons a rest ih =>
    by_cases ha : a.index = idx
    · rw [get_account_by_index_loop, if_pos ha]
    · rw [get_account_by_index_loop, if_neg ha]
      rw [List.filter_cons_of_neg (by simp [ha])] at h
      exact ih h

/-- With no index match left to scan, the loop returns the held account, or
`RecordNotFound` if none is held. -/
theorem get_account_loop_no_match (l : List AccountEntry) (idx : Nat)
    (h : l.filter (fun a => a.index == idx) = []) (acc : Option AccountEntry) :
    get_account_by_index_loop l idx acc = finishScan acc := by
  induction l generalizing acc with
  | nil => cases acc <;> rfl
  | cons a rest ih =>
    by_cases ha : a.index = idx
    · rw [List.filter_cons_of_pos (by simp [ha])] at h
      exact absurd h (List.cons_ne_nil _ _)
    · rw [List.filter_cons_of_neg (by simp [ha])] at h
      cases acc with
      | some a0 =>
        rw [get_account_by_index_loop, if_neg ha]
        exact ih h (some a0)
      | none =>
        rw [get_account_by_index_loop, if_neg ha]
        exact ih h none

/-- Claim C9: `get_account` with an index identifier errors with
`CannotUseIndexIdentifier` when at least two stored accounts carry the index,
returns the unique matching account when exactly one does, and errors with
`RecordNotFound` when none does. -/
theorem get_account_by_index_spec (accounts : List AccountEntry) (idx : Nat) :
    (2 ≤ (accounts.filter fun a => a.index == idx).length →
      get_account_by_index accounts idx =
        Except.error WalletError.cannotUseIndexIdentifier)
    ∧ (∀ a, accounts.filter (fun a => a.index == idx) = [a] →
      get_account_by_index accounts idx = Except.ok a)
    ∧ ((accounts.filter fun a => a.index == idx) = [] →
      get_account_by_index accounts idx = Except.error WalletError.recordNotFound) := by
  induction accounts with
  | nil =>
    refine ⟨?_, ?_, ?_⟩
    · intro h; simp at h
    · intro a h; simp at h
    · intro _; rfl
  | cons b rest ih =>
    by_cases hb : b.index = idx
    · rw [get_account_by_index, get_account_by_index_loop, if_pos hb]
      rw [List.filter_cons_of_pos (by simp [hb])]
      refine ⟨?_, ?_, ?_⟩
      · intro h
        apply get_account_loop_second_match
        intro hc
        rw [hc] at h
        simp at h
      · intro a h
        have hba : b = a := (List.cons.injEq _ _ _ _ ▸ h).1
        have hrest : rest.filter (fun a => a.index == idx) = [] :=
          (List.cons.injEq _ _ _ _ ▸ h).2
        rw [get_account_loop_no_match rest idx hrest (some b), hba]
        rfl
      · intro h
        exact absurd h (List.cons_ne_nil _ _)
    · rw [get_account_by_index, get_account_by_index_loop, if_neg hb]
      rw [List.filter_cons_of_neg (by simp [hb])]
      exact ih

/-- Witness for C9: on `exAccounts`, looking up duplicated index 1 errors with
`CannotUseIndexIdentifier`, unique index 0 returns account 10, and absent
index 5 errors with `RecordNotFound`. -/
theorem get_account_by_index_spec_witness :
    get_account_by_index exAccounts 1 = Except.error WalletError.cannotUseIndexIdentifier
    ∧ get_account_by_index exAccounts 0 = Except.ok ⟨10, 0⟩
    ∧ get_account_by_index exAccounts 5 = Except.error WalletError.recordNotFound :=
  ⟨(get_account_by_index_spec exAccounts 1).1 (by decide),
   (get_account_by_index_spec exAccounts 0).2.1 ⟨10, 0⟩ (by decide),
   (get_account_by_index_spec exAccounts 5).2.2 (by decide)⟩

/-- `removeLocked` respects permutation of the locked set. -/
theorem removeLocked_perm (s : List Nat) (x y : List Nat) (h : x.Perm y) :
    (removeLocked x s).Perm (removeLocked y s) := by
  induction s generalizing x y with
  | nil => exact h
  | cons a rest ih =>
    simp only [removeLocked, List.foldl_cons] at *
    exact ih (x.erase a) (y.erase a) (h.erase a)

/-- Removing exactly the appended addresses restores the locked set up to
permutation. -/
theorem removeLocked_append_perm (s : List Nat) (l : List Nat) :
    (removeLocked (l ++ s) s).Perm l := by
  induction s generalizing l with
  | nil => simp [removeLocked]
  | cons a rest ih =>
    simp only [removeLocked, List.foldl_cons]
    have h1 : ((l ++ a :: rest).erase a).Perm (l ++ rest) := by
      have hmid : (l ++ a :: rest).Perm (a :: (l ++ rest)) := List.perm_middle
      have := hmid.erase a
      rw [List.erase_cons_head] at this
      exact this
    exact ((removeLocked_perm rest _ _ h1).trans (ih l))

/-- The locked set returned by `select_inputs` is the incoming locked set
followed by the addresses of the selected inputs. -/
theorem select_inputs_locked_shape (locked : List Nat) (t : TransferObj)
    (acct : List Address) (availB : Nat → Nat) (availO : Nat → List AddressOutput)
    (sel : List SelInput) (rem : Option SelInput) (locked1 : List Nat)
    (h : select_inputs locked t acct availB availO = Except.ok (sel, rem, locked1)) :
    locked1 = locked ++ sel.map fun i => i.address := by
  unfold select_inputs at h
  cases h1 : select_input t.amount (availableForSelection locked t acct availB availO false) with
  | error e => rw [h1] at h; exact absurd h (by simp)
  | ok sel1 =>
    rw [h1] at h
    simp only [] at h
    split at h
    · exact absurd h (by simp)
    · rename_i sel' heq
      rw [Except.ok.injEq, Prod.mk.injEq, Prod.mk.injEq] at h
      rw [← h.1]
      exact h.2.2.symm

/-- The selection phase of `transfer` appends exactly the addresses of the
inputs it returns to the locked set. -/
theorem transferSelectPhase_locked_shape (acct : List Address) (availB : Nat → Nat)
    (availO : Nat → List AddressOutput) (locked : List Nat) (t : TransferObj)
    (inputs : List (SelInput × List AddressOutput)) (rem : Option SelInput)
    (locked1 : List Nat)
    (h : transferSelectPhase acct availB availO locked t = Except.ok (inputs, rem, locked1)) :
    locked1 = locked ++ inputs.map fun i => i.1.address := by
  unfold transferSelectPhase at h
  split at h
  · split at h
    · rename_i addr addressInputs a hfind
      rw [Except.ok.injEq, Prod.mk.injEq, Prod.mk.injEq] at h
      rw [← h.1, ← h.2.2]
      rfl
    · exact absurd h (by simp)
  · split at h
    · exact absurd h (by simp)
    · rename_i sel rem' locked' hsel
      rw [Except.ok.injEq, Prod.mk.injEq, Prod.mk.injEq] at h
      rw [← h.1, ← h.2.2]
      rw [select_inputs_locked_shape locked t acct availB availO sel rem' locked' hsel]
      rw [List.map_map]
      rfl

/-- Claim C2: every address that a `transfer` call appends to the process-wide
locked-address set during input selection is removed again before the call
returns, both on success and on any error: the locked set at return is a
permutation of the locked set at entry. -/
theorem transfer_releases_locked_addresses (acct : List Address) (balanceTotal : Nat)
    (availB : Nat → Nat) (availO : Nat → List AddressOutput)
    (performResult : Except WalletError Nat) (locked : List Nat) (t : TransferObj) :
    (transfer acct balanceTotal availB availO performResult locked t).lockedAfter.Perm
      locked := by
  have hafter : ∀ t1, (transferAfterChecks acct availB availO performResult locked
      t1).lockedAfter.Perm locked := by
    intro t1
    unfold transferAfterChecks
    cases hphase : transferSelectPhase acct availB availO locked t1 with
    | error e => exact List.Perm.refl locked
    | ok r =>
      obtain ⟨inputs, rem, locked1⟩ := r
      simp only []
      rw [transferSelectPhase_locked_shape acct availB availO locked t1 inputs rem locked1
        hphase]
      exact removeLocked_append_perm _ locked
  simp only [transfer]
  split
  · exact List.Perm.refl locked
  · split
    · split
      · exact hafter _
      · exact List.Perm.refl locked
    · exact hafter _

/-- `smallestCovering` picks an element of the candidate list. -/
theorem smallestCovering_mem (cs : List SelInput) (c : SelInput) :
    smallestCovering c cs ∈ c :: cs := by
  induction cs generalizing c with
  | nil => simp [smallestCovering]
  | cons i rest ih =>
    simp only [smallestCovering, List.foldl_cons]
    by_cases hlt : i.balance < c.balance
    · rw [if_pos hlt]
      have := ih i
      simp only [smallestCovering] at this
      rcases List.mem_cons.mp this with h | h
      · rw [h]; simp
      · simp [h]
    · rw [if_neg hlt]
      have := ih c
      simp only [smallestCovering] at this
      rcases List.mem_cons.mp this with h | h
      · rw [h]; simp
      · simp [h]

/-- `accumulateUntil` only returns elements of its input list. -/
theorem accumulateUntil_subset (target : Nat) (l : List SelInput) (acc : Nat)
    (x : SelInput) (hx : x ∈ accumulateUntil target acc l) : x ∈ l := by
  induction l generalizing acc with
  | nil => simp [accumulateUntil] at hx
  | cons i rest ih =>
    rw [accumulateUntil] at hx
    by_cases hacc : target ≤ acc
    · rw [if_pos hacc] at hx; simp at hx
    · rw [if_neg hacc] at hx
      rcases List.mem_cons.mp hx with h | h
      · rw [h]; simp
      · exact List.mem_cons_of_mem i (ih _ h)

/-- Membership through descending-balance insertion. -/
theorem insertDescByBalance_mem (i x : SelInput) (l : List SelInput)
    (hx : x ∈ insertDescByBalance i l) : x = i ∨ x ∈ l := by
  induction l with
  | nil => simp [insertDescByBalance] at hx; exact Or.inl hx
  | cons a rest ih =>
    rw [insertDescByBalance] at hx
    by_cases hle : a.balance ≤ i.balance
    · rw [if_pos hle] at hx
      rcases List.mem_cons.mp hx with h | h
      · exact Or.inl h
      · exact Or.inr h
    · rw [if_neg hle] at hx
      rcases List.mem_cons.mp hx with h | h
      · exact Or.inr (by rw [h]; simp)
      · rcases ih h with h2 | h2
        · exact Or.inl h2
        · exact Or.inr (List.mem_cons_of_mem a h2)

/-- Membership through the descending-balance insertion sort. -/
theorem sortDescByBalance_subset (l : List SelInput) (x : SelInput)
    (hx : x ∈ sortDescByBalance l) : x ∈ l := by
  induction l with
  | nil => simp [sortDescByBalance] at hx
  | cons a rest ih =>
    rw [sortDescByBalance] at hx
    rcases insertDescByBalance_mem a x (sortDescByBalance rest) hx with h | h
    · rw [h]; simp
    · exact List.mem_cons_of_mem a (ih h)

/-- Everything returned by `select_input` is one of the supplied inputs. -/
theorem select_input_subset (target : Nat) (avail : List SelInput) (sel : List SelInput)
    (h : select_input target avail = Except.ok sel) : ∀ i ∈ sel, i ∈ avail := by
  unfold select_input at h
  by_cases hsum : (avail.map fun i => i.balance).sum < target
  · rw [if_pos hsum] at h; exact absurd h (by simp)
  · rw [if_neg hsum] at h
    cases hfind : avail.find? (fun i => i.balance == target) with
    | some i =>
      rw [hfind] at h
      rw [Except.ok.injEq] at h
      intro j hj
      rw [← h] at hj
      simp at hj
      rw [hj]
      exact List.mem_of_find?_eq_some hfind
    | none =>
      rw [hfind] at h
      cases hfil : avail.filter (fun i => decide (target ≤ i.balance)) with
      | cons c cs =>
        rw [hfil] at h
        rw [Except.ok.injEq] at h
        intro j hj
        rw [← h] at hj
        simp at hj
        rw [hj]
        have hmem : smallestCovering c cs ∈ c :: cs := smallestCovering_mem cs c
        rw [← hfil] at hmem
        exact List.mem_of_mem_filter hmem
      | nil =>
        rw [hfil] at h
        rw [Except.ok.injEq] at h
        intro j hj
        rw [← h] at hj
        have := accumulateUntil_subset target _ 0 j hj
        rcases List.mem_append.mp this with h2 | h2
        · exact List.mem_of_mem_filter (sortDescByBalance_subset _ j h2)
        · exact List.mem_of_mem_filter (sortDescByBalance_subset _ j h2)

/-- Candidate inputs are never in the locked set. -/
theorem availableForSelection_not_locked (locked : List Nat) (t : TransferObj)
    (acct : List Address) (availB : Nat → Nat) (availO : Nat → List AddressOutput)
    (b : Bool) (i : SelInput)
    (hi : i ∈ availableForSelection locked t acct availB availO b) :
    i.address ∉ locked := by
  unfold availableForSelection at hi
  rcases List.mem_map.mp hi with ⟨a, ha, rfl⟩
  have hcond := List.of_mem_filter ha
  rw [Bool.and_eq_true, Bool.and_eq_true] at hcond
  have hnc := hcond.2
  simp at hnc
  exact hnc

/-- Every input selected by `select_inputs` avoids the incoming locked set. -/
theorem select_inputs_not_locked (locked : List Nat) (t : TransferObj)
    (acct : List Address) (availB : Nat → Nat) (availO : Nat → List AddressOutput)
    (sel : List SelInput) (rem : Option SelInput) (locked1 : List Nat)
    (h : select_inputs locked t acct availB availO = Except.ok (sel, rem, locked1)) :
    ∀ i ∈ sel, i.address ∉ locked := by
  unfold select_inputs at h
  cases h1 : select_input t.amount (availableForSelection locked t acct availB availO false) with
  | error e => rw [h1] at h; exact absurd h (by simp)
  | ok sel1 =>
    rw [h1] at h
    simp only [] at h
    split at h
    · exact absurd h (by simp)
    · rename_i res heq
      rw [Except.ok.injEq, Prod.mk.injEq, Prod.mk.injEq] at h
      rw [← h.1]
      split at heq
      · intro i hi
        exact availableForSelection_not_locked locked t acct availB availO true i
          (select_input_subset t.amount _ res heq i hi)
      · rw [Except.ok.injEq] at heq
        rw [← heq]
        intro i hi
        exact availableForSelection_not_locked locked t acct availB availO false i
          (select_input_subset t.amount _ sel1 h1 i hi)

/-- Claim C3: across two transfers on one account serialized by the
locked-address mutex (the second selection starts from the locked set left by
the first), no input address, and hence no available UTXO attached to a
selected address, is selected by both.  Reason: selection excludes locked
addresses from the candidates and appends its choices to the locked set before
the mutex is released. -/
theorem no_double_spend_in_flight (locked : List Nat) (t1 t2 : TransferObj)
    (acct : List Address) (availB1 availB2 : Nat → Nat)
    (availO1 availO2 : Nat → List AddressOutput)
    (sel1 sel2 : List SelInput) (r1 r2 : Option SelInput) (locked1 locked2 : List Nat)
    (h1 : select_inputs locked t1 acct availB1 availO1 = Except.ok (sel1, r1, locked1))
    (h2 : select_inputs locked1 t2 acct availB2 availO2 = Except.ok (sel2, r2, locked2))
    (hOwn1 : ∀ adr o, o ∈ availO1 adr → o.address = adr)
    (hOwn2 : ∀ adr o, o ∈ availO2 adr → o.address = adr) :
    (∀ i1 ∈ sel1, ∀ i2 ∈ sel2, i1.address ≠ i2.address)
    ∧ ∀ u, (∃ i1 ∈ sel1, u ∈ availO1 i1.address) →
        ¬ (∃ i2 ∈ sel2, u ∈ availO2 i2.address) := by
  have hdisj : ∀ i1 ∈ sel1, ∀ i2 ∈ sel2, i1.address ≠ i2.address := by
    intro i1 hi1 i2 hi2 heq
    have hnl := select_inputs_not_locked locked1 t2 acct availB2 availO2 sel2 r2 locked2
      h2 i2 hi2
    have hshape := select_inputs_locked_shape locked t1 acct availB1 availO1 sel1 r1
      locked1 h1
    apply hnl
    rw [hshape]
    apply List.mem_append_right
    rw [← heq]
    exact List.mem_map_of_mem _ hi1
  refine ⟨hdisj, ?_⟩
  rintro u ⟨i1, hi1, hu1⟩ ⟨i2, hi2, hu2⟩
  have e1 : u.address = i1.address := hOwn1 i1.address u hu1
  have e2 : u.address = i2.address := hOwn2 i2.address u hu2
  exact hdisj i1 hi1 i2 hi2 (e1 ▸ e2)

/-- Witness for C3: on the example account, a first transfer of 5 selects
address 1; a second selection over the locked set left behind selects address
2, so the two selected addresses differ. -/
theorem no_double_spend_in_flight_witness : (1 : Nat) ≠ 2 :=
  (no_double_spend_in_flight [] exTransferFive exTransferFive exAcct exAvailB exAvailB
    exAvailO exAvailO [⟨1, false, 5⟩] [⟨2, false, 5⟩] none none [1] [1, 2]
    (by decide) (by decide)
    (fun adr o ho => absurd ho (by simp [exAvailO]))
    (fun adr o ho => absurd ho (by simp [exAvailO]))).1
    ⟨1, false, 5⟩ (by decide) ⟨2, false, 5⟩ (by decide)

/-- Claim C4: `transfer` fails with `InsufficientFunds` whenever the amount
exceeds the account's total balance, with the locked set untouched and no node
contact; with enough balance, an `AccountAddress` remainder strategy naming an
address outside the account fails with `InvalidRemainderValueAddress` in the
same clean way; and when the deposit address belongs to the account the
remainder strategy is first forced to `ReuseAddress`. -/
theorem transfer_precondition_checks (acct : List Address) (balanceTotal : Nat)
    (availB : Nat → Nat) (availO : Nat → List AddressOutput)
    (performResult : Except WalletError Nat) (locked : List Nat) (t : TransferObj) :
    (balanceTotal < t.amount →
      transfer acct balanceTotal availB availO performResult locked t =
        ⟨Except.error WalletError.insufficientFunds, locked, false⟩)
    ∧ (∀ r, t.amount ≤ balanceTotal →
        t.remainderStrategy = RemainderStrategy.accountAddress r →
        (∀ a ∈ acct, a.address ≠ t.address) → (∀ a ∈ acct, a.address ≠ r) →
      transfer acct balanceTotal availB availO performResult locked t =
        ⟨Except.error WalletError.invalidRemainderValueAddress, locked, false⟩)
    ∧ ((∃ a ∈ acct, a.address = t.address) →
      transfer acct balanceTotal availB availO performResult locked t =
        transfer acct balanceTotal availB availO performResult locked
          { t with remainderStrategy := RemainderStrategy.reuseAddress }) := by
  have hamount : (forceReuse acct t).amount = t.amount := by
    unfold forceReuse
    split <;> rfl
  refine ⟨?_, ?_, ?_⟩
  · intro hbal
    unfold transfer
    rw [if_pos (by rw [hamount]; exact hbal)]
  · intro r hbal hstrat hdest hr
    have hforce : forceReuse acct t = t := by
      unfold forceReuse
      rw [if_neg]
      simp only [List.any_eq_true, Bool.not_eq_true, beq_iff_eq]
      rintro ⟨a, ha, haeq⟩
      exact hdest a ha haeq
    unfold transfer
    rw [hforce, if_neg (by omega), hstrat]
    dsimp only []
    rw [if_neg]
    simp only [List.any_eq_true, Bool.not_eq_true, beq_iff_eq]
    rintro ⟨a, ha, haeq⟩
    exact hr a ha haeq
  · rintro ⟨a, ha, haeq⟩
    have hany : acct.any (fun x => x.address == t.address) = true := by
      rw [List.any_eq_true]
      exact ⟨a, ha, by simp [haeq]⟩
    have hforce1 : forceReuse acct t =
        { t with remainderStrategy := RemainderStrategy.reuseAddress } := by
      unfold forceReuse
      rw [if_pos hany]
    have hforce2 : forceReuse acct { t with remainderStrategy := RemainderStrategy.reuseAddress } =
        { t with remainderStrategy := RemainderStrategy.reuseAddress } := by
      unfold forceReuse
      rw [if_pos hany]
    unfold transfer
    rw [hforce1, hforce2]

/-- Witness for C4: on the example account with total balance 4, transferring
5 fails with `InsufficientFunds` without locking or node contact. -/
theorem transfer_precondition_checks_witness :
    transfer exAcct 4 exAvailB exAvailO (Except.ok 99) [] exTransferFive =
      ⟨Except.error WalletError.insufficientFunds, [], false⟩ :=
  (transfer_precondition_checks exAcct 4 exAvailB exAvailO (Except.ok 99) []
    exTransferFive).1 (by decide)

/-- Counterexample to claim C10: a transfer whose explicit input address is
unknown to the account but whose remainder strategy also names an unknown
account address fails with `InvalidRemainderValueAddress`, not with
`InsufficientFunds`. -/
theorem transfer_explicit_input_error_counterexample :
    (transfer exAcct 10 exAvailB exAvailO (Except.ok 99) []
        exTransferBadInputBadRemainder).result =
      Except.error WalletError.invalidRemainderValueAddress
    ∧ (transfer exAcct 10 exAvailB exAvailO (Except.ok 99) []
        exTransferBadInputBadRemainder).result ≠
      Except.error WalletError.insufficientFunds := by
  decide

/-- Claim C10 (amended): a transfer with an explicit input whose address does
not belong to the account fails with `InsufficientFunds` — not a dedicated
invalid-address error — and returns before contacting the node or touching the
locked-address set, provided the earlier remainder-strategy check passes (an
`AccountAddress` target in the account, or a strategy that is forced to
`ReuseAddress` because the deposit address is intra-account, or any other
strategy). -/
theorem transfer_unknown_explicit_input_insufficient (acct : List Address)
    (balanceTotal : Nat) (availB : Nat → Nat) (availO : Nat → List AddressOutput)
    (performResult : Except WalletError Nat) (locked : List Nat) (t : TransferObj)
    (adr : Nat) (outs : List AddressOutput)
    (hin : t.explicitInput = some (adr, outs))
    (hadr : ∀ a ∈ acct, a.address ≠ adr)
    (hrem : ∀ r, t.remainderStrategy = RemainderStrategy.accountAddress r →
      (∃ a ∈ acct, a.address = r) ∨ (∃ a ∈ acct, a.address = t.address)) :
    transfer acct balanceTotal availB availO performResult locked t =
      ⟨Except.error WalletError.insufficientFunds, locked, false⟩ := by
  have hfind : acct.find? (fun a => a.address == adr) = none := by
    rw [List.find?_eq_none]
    intro a ha
    simp only [beq_iff_eq]
    exact hadr a ha
  have hafter : transferAfterChecks acct availB availO performResult locked
      (forceReuse acct t) =
      ⟨Except.error WalletError.insufficientFunds, locked, false⟩ := by
    have hin1 : (forceReuse acct t).explicitInput = some (adr, outs) := by
      unfold forceReuse
      split <;> exact hin
    unfold transferAfterChecks transferSelectPhase
    rw [hin1]
    dsimp only []
    rw [hfind]
  unfold transfer
  by_cases hbal : balanceTotal < (forceReuse acct t).amount
  · rw [if_pos hbal]
  · rw [if_neg hbal]
    by_cases hdest : acct.any (fun a => a.address == t.address)
    · have hforce : forceReuse acct t =
          { t with remainderStrategy := RemainderStrategy.reuseAddress } := by
        unfold forceReuse
        rw [if_pos hdest]
      rw [hforce] at hafter ⊢
      exact hafter
    · have hforce : forceReuse acct t = t := by
        unfold forceReuse
        rw [if_neg hdest]
      rw [hforce] at hafter ⊢
      cases hstrat : t.remainderStrategy with
      | accountAddress r =>
        dsimp only []
        rcases hrem r hstrat with ⟨a, ha, haeq⟩ | ⟨a, ha, haeq⟩
        · rw [if_pos (show (acct.any fun x => x.address == r) = true by
            rw [List.any_eq_true]; exact ⟨a, ha, by simp [haeq]⟩)]
          exact hafter
        · exact absurd (show (acct.any fun x => x.address == t.address) = true by
            rw [List.any_eq_true]; exact ⟨a, ha, by simp [haeq]⟩) hdest
      | reuseAddress => dsimp only []; exact hafter
      | changeAddress => dsimp only []; exact hafter

/-- Witness for amended C10: a transfer with explicit input on the unknown
address 8 and a `ChangeAddress` strategy fails with `InsufficientFunds`,
leaving the locked set empty and never contacting the node. -/
theorem transfer_unknown_explicit_input_insufficient_witness :
    transfer exAcct 10 exAvailB exAvailO (Except.ok 99) [] exTransferBadInput =
      ⟨Except.error WalletError.insufficientFunds, [], false⟩ :=
  transfer_unknown_explicit_input_insufficient exAcct 10 exAvailB exAvailO
    (Except.ok 99) [] exTransferBadInput 8 [] (by decide) (by decide)
    (fun r hr => absurd hr (by simp [exTransferBadInput]))

/-- An address is used exactly when it is not unused. -/
theorem isUsed_eq_not_unused (a : Address) : isUsedAddress a = !isUnusedAddress a := rfl

/-- `lastTwoOk` ignores a head element when at least two elements follow. -/
theorem lastTwoOk_cons (a : Address) (l : List Address) (h : 2 ≤ l.length) :
    lastTwoOk (a :: l) = lastTwoOk l := by
  match l, h with
  | y :: z :: rest, _ => rfl

/-- `lastTwoOk` ignores any prefix before a tail of length at least two. -/
theorem lastTwoOk_append (ign T : List Address) (h : 2 ≤ T.length) :
    lastTwoOk (ign ++ T) = lastTwoOk T := by
  induction ign with
  | nil => rfl
  | cons a ign' ih =>
    rw [List.cons_append, lastTwoOk_cons a (ign' ++ T)
      (by rw [List.length_append]; omega), ih]

/-- A list ending in a used address has at most one trailing unused
address. -/
theorem lastTwoOk_snoc_used (ign : List Address) (a : Address)
    (ha : isUnusedAddress a = false) : lastTwoOk (ign ++ [a]) = true := by
  induction ign with
  | nil => rfl
  | cons b ign' ih =>
    cases ign' with
    | nil => simp [lastTwoOk, ha]
    | cons c ign2 =>
      rw [List.cons_append, lastTwoOk_cons b ((c :: ign2) ++ [a])
        (by simp only [List.length_append, List.length_cons, List.length_nil]; omega)]
      exact ih

/-- Flushing set-aside addresses followed by a used address in front of an
already well-trimmed tail keeps at most one trailing unused address. -/
theorem lastTwoOk_flush (ign : List Address) (a : Address) (T : List Address)
    (ha : isUnusedAddress a = false) (hT : lastTwoOk T = true) :
    lastTwoOk (ign ++ a :: T) = true := by
  cases T with
  | nil => exact lastTwoOk_snoc_used ign a ha
  | cons t T' =>
    cases T' with
    | nil =>
      rw [lastTwoOk_append ign [a, t] (by simp)]
      simp [lastTwoOk, ha]
    | cons t2 T2 =>
      rw [lastTwoOk_append ign _ (by simp only [List.length_cons]; omega)]
      rw [lastTwoOk_cons a _ (by simp only [List.length_cons]; omega)]
      exact hT

/-- If the trimming loop in the set-aside state returns a single address, that
address is used. -/
theorem trimGo_true_singleton (l : List Address) : ∀ (ign : List Address) (x : Address),
    trimGo true ign l = [x] → isUnusedAddress x = false := by
  induction l with
  | nil => intro ign x h; exact absurd h (by simp [trimGo])
  | cons a rest ih =>
    intro ign x h
    rw [trimGo] at h
    cases hu : isUnusedAddress a with
    | true =>
      rw [hu, if_pos rfl] at h
      exact ih (ign ++ [a]) x h
    | false =>
      rw [hu, if_neg (by simp)] at h
      have hlen := congrArg List.length h
      simp only [List.length_append, List.length_cons, List.length_nil] at hlen
      have hign : ign = [] := List.length_eq_zero.mp (by omega)
      have htr : trimGo false [] rest = [] := List.length_eq_zero.mp (by omega)
      rw [hign, htr, List.nil_append] at h
      have hax : a = x := by
        have := congrArg (fun l => l.head?) h
        simpa using this
      rw [← hax]
      exact hu

/-- The trimming loop always leaves at most one trailing unused address. -/
theorem trimGo_lastTwoOk (l : List Address) :
    (∀ ign, lastTwoOk (trimGo true ign l) = true)
    ∧ lastTwoOk (trimGo false [] l) = true := by
  induction l with
  | nil => exact ⟨fun ign => rfl, rfl⟩
  | cons a rest ih =>
    constructor
    · intro ign
      rw [trimGo]
      cases hu : isUnusedAddress a with
      | true =>
        rw [if_pos rfl]
        exact ih.1 (ign ++ [a])
      | false =>
        rw [if_neg (by simp)]
        exact lastTwoOk_flush ign a _ hu ih.2
    · rw [trimGo]
      cases hu : isUnusedAddress a with
      | true =>
        cases hT : trimGo true [] rest with
        | nil => rfl
        | cons x T' =>
          cases T' with
          | nil =>
            have hx := trimGo_true_singleton rest [] x hT
            simp [lastTwoOk, hx]
          | cons y T2 =>
            rw [lastTwoOk_cons a _ (by simp only [List.length_cons]; omega)]
            rw [← hT]
            exact ih.1 []
      | false =>
        cases hT : trimGo false [] rest with
        | nil => rfl
        | cons x T' =>
          cases T' with
          | nil => simp [lastTwoOk, hu]
          | cons y T2 =>
            rw [lastTwoOk_cons a _ (by simp only [List.length_cons]; omega)]
            rw [← hT]
            exact ih.2

/-- The trimming loop returns a sublist of the set-aside addresses followed by
the remaining input. -/
theorem trimGo_sublist (l : List Address) :
    (∀ ign, (trimGo true ign l).Sublist (ign ++ l))
    ∧ (trimGo false [] l).Sublist l := by
  induction l with
  | nil => exact ⟨fun ign => by simp [trimGo], by simp [trimGo]⟩
  | cons a rest ih =>
    constructor
    · intro ign
      rw [trimGo]
      cases hu : isUnusedAddress a with
      | true =>
        rw [if_pos rfl]
        have := ih.1 (ign ++ [a])
        rw [List.append_assoc] at this
        exact this
      | false =>
        rw [if_neg (by simp)]
        exact List.Sublist.append_left (List.Sublist.cons₂ a ih.2) ign
    · rw [trimGo]
      cases hu : isUnusedAddress a with
      | true =>
        apply List.Sublist.cons₂
        have := ih.1 []
        simpa using this
      | false =>
        exact List.Sublist.cons₂ a ih.2

/-- The trimming loop preserves every used address: only unused addresses are
ever dropped. -/
theorem trimGo_used_countP (l : List Address) :
    (∀ ign, (∀ x ∈ ign, isUnusedAddress x = true) →
      (trimGo true ign l).countP isUsedAddress = l.countP isUsedAddress)
    ∧ (trimGo false [] l).countP isUsedAddress = l.countP isUsedAddress := by
  induction l with
  | nil =>
    exact ⟨fun ign hign => by simp [trimGo], by simp [trimGo]⟩
  | cons a rest ih =>
    constructor
    · intro ign hign
      rw [trimGo]
      cases hu : isUnusedAddress a with
      | true =>
        rw [if_pos rfl]
        rw [ih.1 (ign ++ [a]) ?hall]
        case hall =>
          intro x hx
          rcases List.mem_append.mp hx with h | h
          · exact hign x h
          · simp at h
            rw [h]
            exact hu
        rw [List.countP_cons]
        have hua : isUsedAddress a = false := by rw [isUsed_eq_not_unused, hu]; rfl
        rw [hua]
        simp
      | false =>
        rw [if_neg (by simp)]
        rw [List.countP_append, List.countP_cons, List.countP_cons]
        have hzero : ign.countP isUsedAddress = 0 := by
          rw [List.countP_eq_zero]
          intro x hx
          rw [isUsed_eq_not_unused, hign x hx]
          simp
        rw [hzero, ih.2]
        omega
    · rw [trimGo]
      cases hu : isUnusedAddress a with
      | true =>
        rw [List.countP_cons, List.countP_cons, ih.1 [] (by intro x hx; simp at hx)]
      | false =>
        rw [List.countP_cons, List.countP_cons, ih.2]

/-- Claim C5 (amended): the address list produced by a sync pass keeps at most
one trailing unused address; it is a sublist of the accumulated addresses in
which every used address is preserved; and when the message-sweep step does
not run, no change address with an empty output map appears — but the sweep
step reintroduces such addresses, so the exclusion only holds for the
discovery results. -/
theorem perform_sync_addresses_spec (discovered accountAddresses : List Address)
    (syncOne : Address → Address) (doSyncMessages : Bool) :
    lastTwoOk (perform_sync_addresses discovered accountAddresses syncOne doSyncMessages)
        = true
    ∧ (perform_sync_addresses discovered accountAddresses syncOne
        doSyncMessages).Sublist
        (perform_sync_found discovered accountAddresses syncOne doSyncMessages)
    ∧ (perform_sync_addresses discovered accountAddresses syncOne
        doSyncMessages).countP isUsedAddress =
      (perform_sync_found discovered accountAddresses syncOne
        doSyncMessages).countP isUsedAddress
    ∧ (doSyncMessages = false →
      ∀ a ∈ perform_sync_addresses discovered accountAddresses syncOne doSyncMessages,
        ¬ (a.internal = true ∧ a.outputs.isEmpty = true)) := by
  refine ⟨(trimGo_lastTwoOk _).2, (trimGo_sublist _).2, (trimGo_used_countP _).2, ?_⟩
  intro hmsg a ha hbad
  subst hmsg
  have hsub : a ∈ perform_sync_found discovered accountAddresses syncOne false :=
    (trimGo_sublist _).2.mem ha
  simp only [perform_sync_found, sync_address_list_retained, Bool.false_eq_true,
    if_false] at hsub
  have hkeep := List.of_mem_filter hsub
  rw [keepInAddressList, hbad.1, hbad.2] at hkeep
  simp at hkeep

/-- Witness for amended C5: with no message sweep, sync of one batch holding
only the empty change address returns a list not containing it. -/
theorem perform_sync_addresses_spec_witness :
    emptyInternalAddress ∉
      perform_sync_addresses [emptyInternalAddress] [] (fun a => a) false := by
  intro hmem
  exact (perform_sync_addresses_spec [emptyInternalAddress] [] (fun a => a) false).2.2.2
    rfl emptyInternalAddress hmem ⟨rfl, rfl⟩

/-- Counterexample to claim C5: a sync pass whose `SyncMessages` step sweeps
an account holding a change address with no outputs returns that address — the
empty-change-address exclusion of `sync_address_list` does not apply to the
sweep, so such an address can appear in the returned set. -/
theorem perform_sync_internal_empty_counterexample :
    emptyInternalAddress ∈
      perform_sync_addresses [] [emptyInternalAddress] (fun a => a) true
    ∧ emptyInternalAddress.internal = true
    ∧ emptyInternalAddress.outputs.isEmpty = true := by
  decide

/-- Claim C8 (code divergence): on address 7 whose balance went from 50 to
100 while a pre-existing output of 50 was spent (still keyed in the map, so
no per-output event is emitted for it) and a new output of 100 arrived, the
per-output events sum to +100 but the delta is +50, so the residual event is
`received((50 - 100) as u64)` — a wrapped huge amount — and the signed sum of
the emitted events does not equal the balance delta. -/
theorem balance_change_residual_wrap_bug :
    addressBalanceChangeEvents true 50 [1] wrapBugAfterAddress =
      [(BalanceChange.received 100, some 12),
       (BalanceChange.received 18446744073709551566, none)]
    ∧ signedEventSum (addressBalanceChangeEvents true 50 [1] wrapBugAfterAddress) ≠
        (wrapBugAfterAddress.balance : Int) - (50 : Int) := by
  constructor
  · rfl
  · intro h
    rw [show signedEventSum (addressBalanceChangeEvents true 50 [1] wrapBugAfterAddress)
        = (18446744073709551666 : Int) from rfl] at h
    rw [show ((wrapBugAfterAddress.balance : Nat) : Int) - (50 : Int) = (50 : Int) from rfl] at h
    exact absurd h (by decide)

/-- Address derivation is injective. -/
theorem encodeAddr_inj (i j : Nat) (b c : Bool) (h : encodeAddr i b = encodeAddr j c) :
    i = j ∧ b = c := by
  cases b <;> cases c <;> simp [encodeAddr] at h ⊢ <;> omega

/-- The running maximum of a key-index fold dominates the seed. -/
theorem foldl_max_seed (l : List Address) (m : Nat) :
    m ≤ l.foldl (fun m a => max m a.keyIndex) m := by
  induction l generalizing m with
  | nil => exact Nat.le_refl m
  | cons a rest ih =>
    exact Nat.le_trans (Nat.le_max_left m a.keyIndex) (ih (max m a.keyIndex))

/-- The running maximum of a key-index fold dominates every element. -/
theorem foldl_max_mem (l : List Address) (m : Nat) (a : Address) (ha : a ∈ l) :
    a.keyIndex ≤ l.foldl (fun m a => max m a.keyIndex) m := by
  induction l generalizing m with
  | nil => simp at ha
  | cons b rest ih =>
    rw [List.foldl_cons]
    rcases List.mem_cons.mp ha with h | h
    · rw [h]
      exact Nat.le_trans (Nat.le_max_right m b.keyIndex) (foldl_max_seed rest (max m b.keyIndex))
    · exact ih (max m b.keyIndex) h

/-- No public account address exceeds the latest address index. -/
theorem latest_index_ge (A : WAccount) (a : Address) (ha : a ∈ A.addresses)
    (hpub : a.internal = false) : a.keyIndex ≤ latestAddressIndex A := by
  unfold latestAddressIndex
  apply foldl_max_mem
  rw [List.mem_filter, hpub]
  exact ⟨ha, rfl⟩

/-- With distinct bech32 identities, two account addresses with the same
identity are the same entry. -/
theorem address_mem_unique (l : List Address)
    (hnd : (l.map fun x => x.address).Nodup) (a b : Address)
    (ha : a ∈ l) (hb : b ∈ l) (heq : a.address = b.address) : a = b :=
  List.inj_on_of_nodup_map hnd ha hb heq

/-- With distinct message ids, two stored messages with the same id are the
same entry. -/
theorem message_mem_unique (l : List SyncMessage)
    (hnd : (l.map fun x => x.msgId).Nodup) (a b : SyncMessage)
    (ha : a ∈ l) (hb : b ∈ l) (heq : a.msgId = b.msgId) : a = b :=
  List.inj_on_of_nodup_map hnd ha hb heq

/-- Searching an address list with distinct identities for a member's
identity finds that member. -/
theorem find_address_unique (l : List Address)
    (hnd : (l.map fun x => x.address).Nodup) (a : Address) (ha : a ∈ l) :
    l.find? (fun x => x.address == a.address) = some a := by
  induction l with
  | nil => simp at ha
  | cons b rest ih =>
    by_cases hb : b.address = a.address
    · rw [List.find?_cons_of_pos _ (by simp [hb])]
      have : a = b := address_mem_unique (b :: rest) hnd a b ha (by simp) hb.symm
      rw [this]
    · rw [List.find?_cons_of_neg _ (by simpa using hb)]
      rcases List.mem_cons.mp ha with h | h
      · exact absurd (congrArg (fun x => x.address) h).symm hb
      · exact ih (by simp at hnd; exact hnd.2) h

/-- `HashMap::insert` never empties a map. -/
theorem upsertOutput_ne_nil (m : List (Nat × AddressOutput)) (o : AddressOutput) :
    upsertOutput m o ≠ [] := by
  unfold upsertOutput
  split
  · cases m with
    | nil => simp at *
    | cons p rest => simp
  · simp

/-- Folding `HashMap::insert` over any list keeps the map nonempty. -/
theorem foldl_upsert_ne_nil (g : AddressOutput → AddressOutput)
    (l : List AddressOutput) (m : List (Nat × AddressOutput)) (hm : m ≠ []) :
    l.foldl (fun m o => upsertOutput m (g o)) m ≠ [] := by
  induction l generalizing m with
  | nil => exact hm
  | cons o rest ih =>
    exact ih (upsertOutput m (g o)) (upsertOutput_ne_nil m (g o))

/-- If the sweep leaves an empty map empty, the node returned no outputs for
the address. -/
theorem sweepOutputs_nil (L : Ledger) (adr : Nat)
    (h : sweepOutputs L adr [] = []) : L.outputsAt adr = [] := by
  by_contra hne
  cases hout : L.outputsAt adr with
  | nil => exact hne hout
  | cons o rest =>
    unfold sweepOutputs at h
    rw [hout, List.foldl_cons] at h
    exact foldl_upsert_ne_nil (effOutput []) rest _ (upsertOutput_ne_nil [] _) h

/-- Syncing an address for which the node reports no outputs leaves the map
unchanged. -/
theorem syncAddressOutputs_of_ledger_nil (L : Ledger) (adr : Nat)
    (m : List (Nat × AddressOutput)) (h : L.outputsAt adr = []) :
    syncAddressOutputs L adr m = m := by
  unfold syncAddressOutputs
  rw [h]
  rfl

/-- An address with no node outputs yields no sync messages. -/
theorem syncAddressMessages_of_ledger_nil (L : Ledger) (K : List SyncMessage)
    (m : List (Nat × AddressOutput)) (adr : Nat) (h : L.outputsAt adr = []) :
    syncAddressMessages L K m adr = [] := by
  unfold syncAddressMessages
  rw [h]
  rfl

/-- The sweep of an address whose balance and outputs are already the node's
answers is the identity. -/
theorem sweepAddressFull_fixpoint (L : Ledger) (a : Address)
    (hb : a.balance = L.balanceAt a.address)
    (ho : sweepOutputs L a.address a.outputs = a.outputs) :
    sweepAddressFull L a = a := by
  unfold sweepAddressFull
  rw [ho, ← hb]

/-- The trimming loop in the set-aside state drops an all-unused remainder
entirely. -/
theorem trimGo_true_all_unused (l : List Address)
    (h : ∀ x ∈ l, isUnusedAddress x = true) (ign : List Address) :
    trimGo true ign l = [] := by
  induction l generalizing ign with
  | nil => rfl
  | cons a rest ih =>
    rw [trimGo, if_pos (h a (by simp))]
    exact ih (fun x hx => h x (List.mem_cons_of_mem a hx)) (ign ++ [a])

/-- Appending an address the account already stores replaces it with itself. -/
theorem upsertAddress_self (l : List Address)
    (hnd : (l.map fun x => x.address).Nodup) (a : Address) (ha : a ∈ l) :
    upsertAddress l a = l := by
  unfold upsertAddress
  rw [if_pos (by rw [List.any_eq_true]; exact ⟨a, ha, by simp⟩)]
  have : ∀ x ∈ l, (if x.address == a.address then a else x) = x := by
    intro x hx
    by_cases hxa : x.address = a.address
    · rw [if_pos (by simp [hxa])]
      exact (address_mem_unique l hnd x a hx ha hxa).symm
    · rw [if_neg (by simp [hxa])]
  calc l.map (fun x => if x.address == a.address then a else x)
      = l.map id := List.map_congr_left this
    _ = l := List.map_id l

/-- Appending addresses the account already stores changes nothing. -/
theorem appendAddresses_of_mem (l new : List Address)
    (hnd : (l.map fun x => x.address).Nodup) (h : ∀ x ∈ new, x ∈ l) :
    appendAddresses l new = l := by
  induction new with
  | nil => rfl
  | cons a rest ih =>
    unfold appendAddresses
    rw [List.foldl_cons, upsertAddress_self l hnd a (h a (by simp))]
    exact ih fun x hx => h x (List.mem_cons_of_mem a hx)

/-- Appending a message the account already stores replaces it with itself. -/
theorem upsertMessage_self (l : List SyncMessage)
    (hnd : (l.map fun x => x.msgId).Nodup) (m : SyncMessage) (hm : m ∈ l) :
    upsertMessage l m = l := by
  unfold upsertMessage
  rw [if_pos (by rw [List.any_eq_true]; exact ⟨m, hm, by simp⟩)]
  have : ∀ x ∈ l, (if x.msgId == m.msgId then m else x) = x := by
    intro x hx
    by_cases hxm : x.msgId = m.msgId
    · rw [if_pos (by simp [hxm])]
      exact (message_mem_unique l hnd x m hx hm hxm).symm
    · rw [if_neg (by simp [hxm])]
  calc l.map (fun x => if x.msgId == m.msgId then m else x)
      = l.map id := List.map_congr_left this
    _ = l := List.map_id l

/-- Appending messages the account already stores changes nothing. -/
theorem appendMessages_of_mem (l new : List SyncMessage)
    (hnd : (l.map fun x => x.msgId).Nodup) (h : ∀ x ∈ new, x ∈ l) :
    appendMessages l new = l := by
  induction new with
  | nil => rfl
  | cons m rest ih =>
    unfold appendMessages
    rw [List.foldl_cons, upsertMessage_self l hnd m (h m (by simp))]
    exact ih fun x hx => h x (List.mem_cons_of_mem m hx)

/-- An address whose balance did not change produces no balance events. -/
theorem addressBalanceChangeEvents_of_eq (s : Bool) (b : Nat) (ids : List Nat)
    (a : Address) (h : a.balance = b) :
    addressBalanceChangeEvents s b ids a = [] := by
  unfold addressBalanceChangeEvents
  rw [if_pos (by simp [h])]

/-- Membership in a discovery batch. -/
theorem discoveryBatch_mem (acct : WAccount) (i gap : Nat) (x : Address) :
    x ∈ discoveryBatch acct i gap ↔
      ∃ j, j < gap ∧
        (x = mkSyncAddr acct (i + j) false ∨ x = mkSyncAddr acct (i + j) true) := by
  unfold discoveryBatch
  rw [List.mem_flatMap]
  constructor
  · rintro ⟨j, hj, hx⟩
    rw [List.mem_range] at hj
    simp only [List.mem_cons, List.not_mem_nil, or_false] at hx
    exact ⟨j, hj, hx⟩
  · rintro ⟨j, hj, hx⟩
    exact ⟨j, List.mem_range.mpr hj, by simpa using hx⟩

/-- A discovery batch splits into its first index pair and the rest. -/
theorem discoveryBatch_succ (acct : WAccount) (i g' : Nat) :
    discoveryBatch acct i (g' + 1) =
      mkSyncAddr acct i false :: mkSyncAddr acct i true ::
        (List.range g').flatMap
          (fun j => [mkSyncAddr acct (i + (j + 1)) false,
                     mkSyncAddr acct (i + (j + 1)) true]) := by
  unfold discoveryBatch
  rw [List.range_succ_eq_map, List.flatMap_cons, List.flatMap_map]
  rw [Nat.add_zero]
  rfl

/-- The outputs of a discovery address object for a stored account address. -/
theorem mkSyncAddrOuts_of_mem (acct : WAccount)
    (hnd : (acct.addresses.map fun x => x.address).Nodup) (a : Address)
    (ha : a ∈ acct.addresses) : mkSyncAddrOuts acct a.address = a.outputs := by
  unfold mkSyncAddrOuts
  rw [find_address_unique acct.addresses hnd a ha]

/-- The outputs of a discovery address object for an unknown identity. -/
theorem mkSyncAddrOuts_fresh (acct : WAccount) (adr : Nat)
    (h : ∀ a ∈ acct.addresses, a.address ≠ adr) : mkSyncAddrOuts acct adr = [] := by
  unfold mkSyncAddrOuts
  rw [List.find?_eq_none.mpr (by intro a ha; simpa using h a ha)]

/-- Claim C6 (amended): a sync pass on a sync-coherent account state — one
whose addresses already carry the node's balances and outputs, whose stored
messages cover every message reachable from those outputs (with matching
confirmation when it is still undecided), whose latest public address and the
change addresses at or beyond the latest index are unused, and whose
discovery window is quiet on the ledger — emits no new-transaction,
confirmation-change or balance-change events and leaves the account unchanged
except for the last-synced timestamp.  This is the situation of a second run
after a completed first run with no ledger change; for general prior states
the second run can still emit events (see the counterexample). -/
theorem execute_second_run_idempotent (L : Ledger) (syncSpent : Bool) (A : WAccount)
    (fuel t : Nat) (out : ExecOutcome)
    (hw1 : ∀ a ∈ A.addresses, a.address = encodeAddr a.keyIndex a.internal)
    (hw2 : (A.addresses.map fun a => a.address).Nodup)
    (hw3 : (A.messages.map fun m => m.msgId).Nodup)
    (hbal : ∀ a ∈ A.addresses, a.balance = L.balanceAt a.address)
    (hfix : ∀ a ∈ A.addresses, sweepOutputs L a.address a.outputs = a.outputs)
    (hmsg : ∀ a ∈ A.addresses, ∀ o ∈ L.outputsAt a.address,
      L.msgAvailable (effOutput a.outputs o).messageId = true →
      ∃ k ∈ A.messages, k.msgId = (effOutput a.outputs o).messageId ∧
        (k.confirmed.isSome = true ∨
         (k.confirmed = none ∧ confOfOutput L (effOutput a.outputs o) = none)))
    (hlat : ∀ a ∈ A.addresses, a.internal = false →
      a.keyIndex = latestAddressIndex A → a.outputs = [])
    (hint : ∀ a ∈ A.addresses, a.internal = true →
      latestAddressIndex A ≤ a.keyIndex → a.outputs = [])
    (hpub : ∃ a ∈ A.addresses, a.internal = false ∧ a.keyIndex = latestAddressIndex A)
    (hq : ∀ j, j < gapFor A →
      L.outputsAt (encodeAddr (latestAddressIndex A + j) true) = [] ∧
      (0 < j → L.outputsAt (encodeAddr (latestAddressIndex A + j) false) = []))
    (hrun : execute_model L syncSpent fuel A t = some out) :
    out.newTransactionEvents = [] ∧ out.confirmationChangeEvents = []
    ∧ out.balanceChangeEvents = [] ∧ out.account = ⟨A.addresses, A.messages, some t⟩ := by
  obtain ⟨aP, haP, haPpub, haPidx⟩ := hpub
  have haPaddr : aP.address = encodeAddr (latestAddressIndex A) false := by
    rw [hw1 aP haP, haPpub, haPidx]
  have haPout : aP.outputs = [] := hlat aP haP haPpub haPidx
  have haPledger : L.outputsAt (encodeAddr (latestAddressIndex A) false) = [] := by
    have h := hfix aP haP
    rw [haPout] at h
    rw [← haPaddr]
    exact sweepOutputs_nil L aP.address h
  have haPform : aP = ⟨encodeAddr (latestAddressIndex A) false, false, latestAddressIndex A,
      L.balanceAt (encodeAddr (latestAddressIndex A) false), []⟩ := by
    have hb := hbal aP haP
    rw [haPaddr] at hb
    calc aP = ⟨aP.address, aP.internal, aP.keyIndex, aP.balance, aP.outputs⟩ := rfl
      _ = _ := by rw [haPaddr, haPpub, haPidx, haPout, hb]
  have hgpos : 0 < gapFor A := by
    unfold gapFor
    split <;> omega
  have hnofreshpub : ∀ k : Nat, 0 < k →
      ∀ a ∈ A.addresses, a.address ≠ encodeAddr (latestAddressIndex A + k) false := by
    intro k hk a ha heq
    have h2 : encodeAddr a.keyIndex a.internal = encodeAddr (latestAddressIndex A + k) false := by
      rw [← hw1 a ha, heq]
    obtain ⟨hki, hint2⟩ := encodeAddr_inj _ _ _ _ h2
    have hle := latest_index_ge A a ha hint2
    omega
  have hmkIntOut : ∀ j : Nat,
      mkSyncAddrOuts A (encodeAddr (latestAddressIndex A + j) true) = [] := by
    intro j
    unfold mkSyncAddrOuts
    cases hfind : A.addresses.find?
        (fun a => a.address == encodeAddr (latestAddressIndex A + j) true) with
    | none => rfl
    | some a =>
      have hmem := List.mem_of_find?_eq_some hfind
      have hpa : a.address = encodeAddr (latestAddressIndex A + j) true := by
        have := List.find?_some hfind
        simpa using this
      have h2 : encodeAddr a.keyIndex a.internal
          = encodeAddr (latestAddressIndex A + j) true := by
        rw [← hw1 a hmem, hpa]
      obtain ⟨hki, hint2⟩ := encodeAddr_inj _ _ _ _ h2
      exact hint a hmem hint2 (by omega)
  have hmkPubOut : ∀ k : Nat, 0 < k →
      mkSyncAddrOuts A (encodeAddr (latestAddressIndex A + k) false) = [] := by
    intro k hk
    exact mkSyncAddrOuts_fresh A _ (hnofreshpub k hk)
  have hmkP : mkSyncAddr A (latestAddressIndex A) false
      = ⟨encodeAddr (latestAddressIndex A) false, false, latestAddressIndex A, 0, []⟩ := by
    unfold mkSyncAddr
    rw [← haPaddr, mkSyncAddrOuts_of_mem A hw2 aP haP, haPout]
  have hsyncP : syncAddressFull L (mkSyncAddr A (latestAddressIndex A) false) = aP := by
    rw [hmkP]
    unfold syncAddressFull
    rw [syncAddressOutputs_of_ledger_nil L _ _ haPledger]
    rw [haPform]
  have hfm : batchMessages L A A.messages (latestAddressIndex A) (gapFor A) = [] := by
    unfold batchMessages
    rw [List.flatMap_eq_nil_iff]
    intro a ha
    rw [discoveryBatch_mem] at ha
    obtain ⟨j, hj, hcase⟩ := ha
    rcases hcase with h | h
    · rw [h]
      apply syncAddressMessages_of_ledger_nil
      show L.outputsAt (encodeAddr (latestAddressIndex A + j) false) = []
      rcases Nat.eq_zero_or_pos j with h0 | hposj
      · rw [h0, Nat.add_zero]
        exact haPledger
      · exact (hq j hj).2 hposj
    · rw [h]
      apply syncAddressMessages_of_ledger_nil
      show L.outputsAt (encodeAddr (latestAddressIndex A + j) true) = []
      exact (hq j hj).1
  have hg1 : gapFor A = if latestAddressIndex A == 0 then 10 else 1 := rfl
  obtain ⟨g', hg'⟩ : ∃ g', gapFor A = g' + 1 := by
    rw [hg1]
    split
    · exact ⟨9, rfl⟩
    · exact ⟨0, rfl⟩
  have hsyncIntOut : ∀ j : Nat, j < gapFor A →
      (syncAddressFull L (mkSyncAddr A (latestAddressIndex A + j) true)).outputs = [] := by
    intro j hj
    show syncAddressOutputs L (encodeAddr (latestAddressIndex A + j) true)
      (mkSyncAddrOuts A (encodeAddr (latestAddressIndex A + j) true)) = []
    rw [hmkIntOut j]
    rw [syncAddressOutputs_of_ledger_nil L _ _ (hq j hj).1]
  have hsyncPubOut : ∀ k : Nat, 0 < k → k < gapFor A →
      (syncAddressFull L (mkSyncAddr A (latestAddressIndex A + k) false)).outputs = [] := by
    intro k hk hkg
    show syncAddressOutputs L (encodeAddr (latestAddressIndex A + k) false)
      (mkSyncAddrOuts A (encodeAddr (latestAddressIndex A + k) false)) = []
    rw [hmkPubOut k hk]
    rw [syncAddressOutputs_of_ledger_nil L _ _ ((hq k hkg).2 hk)]
  obtain ⟨fatail, hfa, hfatail⟩ : ∃ tail,
      batchRetained L A (latestAddressIndex A) (gapFor A) = aP :: tail
      ∧ ((∀ x ∈ tail, x.outputs = [] ∧ ∀ a ∈ A.addresses, a ≠ x)
         ∧ (g' = 0 → tail = [])) := by
    refine ⟨sync_address_list_retained
      (((List.range g').flatMap fun j =>
        [mkSyncAddr A (latestAddressIndex A + (j + 1)) false,
         mkSyncAddr A (latestAddressIndex A + (j + 1)) true]).map (syncAddressFull L)),
      ?_, ?_, ?_⟩
    · unfold batchRetained
      rw [hg', discoveryBatch_succ]
      rw [List.map_cons, List.map_cons]
      unfold sync_address_list_retained
      rw [hsyncP]
      rw [List.filter_cons_of_pos (by simp [keepInAddressList, haPpub])]
      rw [List.filter_cons_of_neg ?hdropint]
      case hdropint =>
        have ho := hsyncIntOut 0 hgpos
        rw [Nat.add_zero] at ho
        have hin : (syncAddressFull L (mkSyncAddr A (latestAddressIndex A) true)).internal
            = true := rfl
        simp [keepInAddressList, ho, hin]
    · intro x hx
      have hx2 := List.mem_of_mem_filter hx
      rw [List.mem_map] at hx2
      obtain ⟨y, hy, hxy⟩ := hx2
      rw [List.mem_flatMap] at hy
      obtain ⟨j, hjr, hymem⟩ := hy
      rw [List.mem_range] at hjr
      have hjg : j + 1 < gapFor A := by omega
      simp only [List.mem_cons, List.not_mem_nil, or_false] at hymem
      rcases hymem with hy1 | hy1
      · constructor
        · rw [← hxy, hy1]
          exact hsyncPubOut (j + 1) (by omega) hjg
        · intro a ha heq
          have haddr : a.address = encodeAddr (latestAddressIndex A + (j + 1)) false := by
            rw [heq, ← hxy, hy1]
            rfl
          exact hnofreshpub (j + 1) (by omega) a ha haddr
      · exfalso
        have hkeep := List.of_mem_filter hx
        rw [← hxy, hy1] at hkeep
        have ho := hsyncIntOut (j + 1) hjg
        rw [keepInAddressList] at hkeep
        rw [show (syncAddressFull L (mkSyncAddr A (latestAddressIndex A + (j + 1)) true)).internal
            = true from rfl] at hkeep
        rw [List.isEmpty_iff.mpr ho] at hkeep
        simp at hkeep
    · intro hg0
      rw [hg0]
      rfl
  have hfaAll : ∀ x ∈ batchRetained L A (latestAddressIndex A) (gapFor A),
      x.outputs = [] := by
    rw [hfa]
    intro x hx
    rcases List.mem_cons.mp hx with h | h
    · rw [h]; exact haPout
    · exact (hfatail.1 x h).1
  cases fuel with
  | zero => simp [execute_model, perform_sync_full, sync_addresses_go] at hrun
  | succ fuel' =>
    have hcond : ((batchMessages L A A.messages (latestAddressIndex A) (gapFor A)).isEmpty
        && (batchRetained L A (latestAddressIndex A)
              (gapFor A)).all fun a => a.outputs.isEmpty) = true := by
      rw [hfm]
      simp only [List.isEmpty_nil, Bool.true_and]
      rw [List.all_eq_true]
      intro a ha
      rw [List.isEmpty_iff]
      exact hfaAll a ha
    have hloop : sync_addresses_go L A A.messages (fuel' + 1)
        (latestAddressIndex A) (gapFor A) [] [] =
        some (batchRetained L A (latestAddressIndex A) (gapFor A), []) := by
      rw [sync_addresses_go, if_pos hcond, hfm]
      rfl
    have hperform : perform_sync_full L A (latestAddressIndex A) (gapFor A) (fuel' + 1) =
        some ⟨trimAddresses (batchRetained L A (latestAddressIndex A) (gapFor A) ++
            (sweptList A (batchRetained L A (latestAddressIndex A)
              (gapFor A))).map (sweepAddressFull L)),
          (sweptList A (batchRetained L A (latestAddressIndex A)
              (gapFor A))).flatMap (sweepMessagesFor L (knownConfIds A))⟩ := by
      unfold perform_sync_full
      rw [hloop]
      dsimp only []
      rw [show newMessagesFilter A [] = [] from rfl]
      rw [List.nil_append]
    have hsweptsub : ∀ a ∈ sweptList A (batchRetained L A (latestAddressIndex A)
        (gapFor A)), a ∈ A.addresses := fun a ha => (List.mem_filter.mp ha).1
    have hsweptmap : (sweptList A (batchRetained L A (latestAddressIndex A)
        (gapFor A))).map (sweepAddressFull L) =
        sweptList A (batchRetained L A (latestAddressIndex A) (gapFor A)) := by
      calc (sweptList A (batchRetained L A (latestAddressIndex A)
              (gapFor A))).map (sweepAddressFull L)
          = (sweptList A (batchRetained L A (latestAddressIndex A)
              (gapFor A))).map id :=
            List.map_congr_left fun a ha =>
              sweepAddressFull_fixpoint L a (hbal a (hsweptsub a ha))
                (hfix a (hsweptsub a ha))
        _ = _ := List.map_id _
    have htrim : ∀ x ∈ trimAddresses (batchRetained L A (latestAddressIndex A)
        (gapFor A) ++ sweptList A (batchRetained L A (latestAddressIndex A)
          (gapFor A))), x ∈ A.addresses := by
      by_cases hL0 : latestAddressIndex A = 0
      · have hAllU : ∀ a ∈ A.addresses, isUnusedAddress a = true := by
          intro a ha
          cases hai : a.internal with
          | true =>
            have := hint a ha hai (by omega)
            simp [isUnusedAddress, this]
          | false =>
            have hle := latest_index_ge A a ha hai
            have := hlat a ha hai (by omega)
            simp [isUnusedAddress, this]
        intro x hx
        rw [hfa, List.cons_append] at hx
        unfold trimAddresses at hx
        rw [trimGo] at hx
        rw [show isUnusedAddress aP = true from by simp [isUnusedAddress, haPout]] at hx
        rw [trimGo_true_all_unused _ ?allu []] at hx
        case allu =>
          intro z hz
          rcases List.mem_append.mp hz with h | h
          · simp [isUnusedAddress, (hfatail.1 z h).1]
          · exact hAllU z (hsweptsub z (by rw [hfa]; exact h))
        simp at hx
        rw [hx]
        exact haP
      · have hg0 : g' = 0 := by
          rw [hg1, if_neg (by simpa using hL0)] at hg'
          omega
        have hfa1 : batchRetained L A (latestAddressIndex A) (gapFor A) = [aP] := by
          rw [hfa, hfatail.2 hg0]
        intro x hx
        have hsub : x ∈ batchRetained L A (latestAddressIndex A) (gapFor A) ++
            sweptList A (batchRetained L A (latestAddressIndex A) (gapFor A)) :=
          (trimGo_sublist _).2.mem hx
        rw [hfa1] at hsub
        rcases List.mem_append.mp hsub with h | h
        · rw [List.mem_singleton.mp h]
          exact haP
        · exact hsweptsub x (by rw [← hfa1] at h; exact h)
    have hparsed : ∀ m ∈ (sweptList A (batchRetained L A (latestAddressIndex A)
        (gapFor A))).flatMap (sweepMessagesFor L (knownConfIds A)),
        m ∈ A.messages ∧ m.confirmed = none := by
      intro m hm
      rw [List.mem_flatMap] at hm
      obtain ⟨a, ha, hma⟩ := hm
      have haA := hsweptsub a ha
      unfold sweepMessagesFor at hma
      rw [List.mem_filterMap] at hma
      obtain ⟨o, ho, hfo⟩ := hma
      by_cases hkc : (knownConfIds A).contains (effOutput a.outputs o).messageId = true
      · rw [if_pos hkc] at hfo
        exact absurd hfo (by simp)
      · rw [if_neg hkc] at hfo
        by_cases hav : L.msgAvailable (effOutput a.outputs o).messageId = true
        · rw [if_pos hav] at hfo
          rw [Option.some.injEq] at hfo
          obtain ⟨k, hk, hkid, hkdisj⟩ := hmsg a haA o ho hav
          rcases hkdisj with hsome | ⟨hnone, hconf⟩
          · exfalso
            apply hkc
            rw [List.contains_iff_exists_mem_beq]
            refine ⟨k.msgId, ?_, by simp [hkid]⟩
            unfold knownConfIds
            rw [List.mem_map]
            exact ⟨k, List.mem_filter.mpr ⟨hk, hsome⟩, rfl⟩
          · have hkm : k = m := by
              rw [← hfo]
              calc k = ⟨k.msgId, k.confirmed⟩ := rfl
                _ = _ := by rw [hkid, hnone, hconf]
            constructor
            · rw [← hkm]
              exact hk
            · rw [← hkm, hnone]
        · rw [if_neg hav] at hfo
          exact absurd hfo (by simp)
    have hnew : ((sweptList A (batchRetained L A (latestAddressIndex A)
        (gapFor A))).flatMap (sweepMessagesFor L (knownConfIds A))).filter
        (fun m => !A.messages.any fun mb => mb.msgId == m.msgId) = [] := by
      rw [List.filter_eq_nil_iff]
      intro m hm
      have hmem := (hparsed m hm).1
      have hany : A.messages.any (fun mb => mb.msgId == m.msgId) = true := by
        rw [List.any_eq_true]
        exact ⟨m, hmem, by simp⟩
      simp [hany]
    have hconf : ((sweptList A (batchRetained L A (latestAddressIndex A)
        (gapFor A))).flatMap (sweepMessagesFor L (knownConfIds A))).filter
        (fun m => A.messages.any fun mb =>
          mb.msgId == m.msgId && !(mb.confirmed == m.confirmed)) = [] := by
      rw [List.filter_eq_nil_iff]
      intro m hm hpred
      rw [List.any_eq_true] at hpred
      obtain ⟨mb, hmb, hcondb⟩ := hpred
      rw [Bool.and_eq_true] at hcondb
      have hmbid : mb.msgId = m.msgId := by simpa using hcondb.1
      have hmbm : mb = m :=
        message_mem_unique A.messages hw3 mb m hmb (hparsed m hm).1 hmbid
      rw [hmbm] at hcondb
      simp at hcondb
    have happend : appendAddresses A.addresses
        (trimAddresses (batchRetained L A (latestAddressIndex A) (gapFor A) ++
          sweptList A (batchRetained L A (latestAddressIndex A) (gapFor A)))) =
        A.addresses :=
      appendAddresses_of_mem _ _ hw2 htrim
    have happendM : appendMessages A.messages
        ((sweptList A (batchRetained L A (latestAddressIndex A)
          (gapFor A))).flatMap (sweepMessagesFor L (knownConfIds A))) = A.messages :=
      appendMessages_of_mem _ _ hw3 fun m hm => (hparsed m hm).1
    have hbalev : A.addresses.flatMap (executeBalanceEvents syncSpent A.addresses) = [] := by
      rw [List.flatMap_eq_nil_iff]
      intro a ha
      unfold executeBalanceEvents
      rw [find_address_unique A.addresses hw2 a ha]
      dsimp only []
      rw [addressBalanceChangeEvents_of_eq syncSpent a.balance _ a rfl]
      rfl
    unfold execute_model at hrun
    rw [hperform] at hrun
    dsimp only [] at hrun
    rw [Option.some.injEq] at hrun
    rw [← hrun]
    unfold executeOutcome
    rw [hsweptmap, happend, happendM, hnew, hconf, hbalev]
    exact ⟨rfl, rfl, rfl, rfl⟩

/-- Witness for the amended C6 theorem: a fresh one-address account over the
empty ledger is sync-coherent, and a run at time 2 emits no events and only
refreshes the timestamp. -/
theorem execute_second_run_idempotent_witness :
    (execOutD (execute_model benignLedger true 1 benignAccount 2)).newTransactionEvents = []
    ∧ (execOutD (execute_model benignLedger true 1 benignAccount 2)).confirmationChangeEvents = []
    ∧ (execOutD (execute_model benignLedger true 1 benignAccount 2)).balanceChangeEvents = []
    ∧ (execOutD (execute_model benignLedger true 1 benignAccount 2)).account
        = ⟨benignAccount.addresses, benignAccount.messages, some 2⟩ :=
  execute_second_run_idempotent benignLedger true benignAccount 1 2
    (execOutD (execute_model benignLedger true 1 benignAccount 2))
    (by decide) (by decide) (by decide) (by decide) (by decide)
    (by decide) (by decide) (by decide) (by decide) (by decide) (by decide)

/-- Counterexample to claim C6, in two parts.  (1) Even on a fresh account
against an empty ledger, where the second sync emits no events, the persisted
state is not byte-equal after the second run: the last-synced timestamp
changed (removing the timestamp restores equality).  (2) On a consistent
account whose latest address holds a spent output with an unrecorded message,
the first run emits no events, but the second run emits a new-transaction
event with no ledger change at all: discovery skips messages of outputs
stored as spent, and the message sweep — which does not skip them — misses the
address in the first run (it is in the discovery skip list) but reaches it in
the second run, because the latest address index moved. -/
theorem execute_twice_counterexample :
    ((execute_model benignLedger true 3 benignAccount 1).isSome = true
      ∧ (execute_model benignLedger true 3 benignOut1.account 2).isSome = true
      ∧ benignOut2.newTransactionEvents = []
      ∧ benignOut2.confirmationChangeEvents = []
      ∧ benignOut2.balanceChangeEvents = []
      ∧ benignOut2.account ≠ benignOut1.account
      ∧ { benignOut2.account with lastSyncedAt := benignOut1.account.lastSyncedAt }
          = benignOut1.account)
    ∧ ((execute_model spentLedger true 3 spentAccount 1).isSome = true
      ∧ (execute_model spentLedger true 3 spentOut1.account 2).isSome = true
      ∧ spentOut1.newTransactionEvents = []
      ∧ spentOut1.confirmationChangeEvents = []
      ∧ spentOut1.balanceChangeEvents = []
      ∧ spentOut2.newTransactionEvents ≠ []
      ∧ spentOut2.account.messages ≠ spentOut1.account.messages) := by
  decide

end WalletSpec
